import Mathlib

/-!
# The `dash` teaching shell: parser, line reader, completion and built-ins

A shallow embedding of `src/src/shell-skeleton.c`.

Conventions of the embedding.

* A region of memory read through a `char *` is a `List Char`: the bytes from
  the pointer onwards.  The terminator is the character `NUL`; bytes past the
  end of the list read as `NUL`.  A C string stored in memory is therefore
  `s ++ NUL :: rest`, with `NUL ∉ s` and `rest` whatever bytes follow it.
* A `char *` that is only ever read as a string (a command name, an argument,
  a redirect target) is the list of its characters; a pointer that may be
  `NULL` is an `Option`.
* Capacities of fixed arrays (`temp_buf[1024]`, `buf[4096]`,
  `uncompleted_command[512]`, `matches[512]`) are not part of the embedding,
  except where the code tests them itself (`sizeof(buf) - 1` in `prompt`).
* `malloc` returns memory with unspecified contents: the contents of the
  `k`-th `struct command_t` allocated by `parse_command` are `junk k`, for an
  arbitrary `junk : Nat → command_t` (the `heap` of the parser state).
* Loops whose termination is not structural carry a fuel argument and return
  `none` when it runs out; the theorems show that the fuel supplied by the
  entry points is always enough.
-/

set_option autoImplicit false

namespace Shell

/-! ## Strings and memory -/

/-- The string terminator, `'\0'`. -/
def NUL : Char := Char.ofNat 0

/-- `strlen`: the number of bytes before the first terminator. -/
def strlen (buf : List Char) : Nat := (buf.takeWhile (fun c => c != NUL)).length

/-- The C string stored at the start of a region of memory. -/
def cstr (buf : List Char) : List Char := buf.takeWhile (fun c => c != NUL)

/-- `strchr(splitters, c) != NULL` with `splitters = " \t"`, for a byte `c` of
a string (the callers test `len > 0` first, so `c` is never the terminator). -/
def is_splitter (c : Char) : Bool := c == ' ' || c == '\t'

/-- The left-trimming loop of `parse_command`:
`while (len > 0 && strchr(splitters, buf[0]) != NULL) { buf++; len--; }`. -/
def trim_left : List Char → Nat → List Char × Nat
  | c :: buf, len + 1 => if is_splitter c then trim_left buf len else (c :: buf, len + 1)
  | buf, len => (buf, len)

/-- The right-trimming loop of `parse_command`:
`while (len > 0 && strchr(splitters, buf[len - 1]) != NULL) buf[--len] = 0;`. -/
def trim_right : List Char → Nat → List Char × Nat
  | buf, 0 => (buf, 0)
  | buf, len + 1 =>
    if is_splitter (buf.getD len NUL) then trim_right (buf.set len NUL) len
    else (buf, len + 1)

/-- What one call of `strtok` hands back: the token, and the memory at its end
(`pch + strlen(pch)`) as it was before `strtok` wrote the terminator there. -/
structure token where
  pch : List Char
  tail : List Char

/-- One call of `strtok` continuing from the saved pointer `s` (for
`strtok(buf, d)` the saved pointer is `buf`).  Returns the token, if any, and
the new saved pointer.  `delim` is membership in the delimiter string. -/
def strtok (delim : Char → Bool) (s : List Char) : Option token × List Char :=
  let s1 := s.dropWhile delim
  match s1 with
  | [] => (none, [])
  | c :: _ =>
    if c == NUL then (none, s1)
    else
      let e := s1.dropWhile (fun c => !delim c && c != NUL)
      (some ⟨s1.takeWhile (fun c => !delim c && c != NUL), e⟩,
       match e with
       | [] => []
       | d :: r => if d == NUL then e else r)

/-! ## The pipeline parser -/

/-- The C `struct command_t`. -/
structure command_t where
  name : List Char
  background : Bool
  auto_complete : Bool
  arg_count : Nat
  args : List (Option (List Char))
  redirects : Fin 3 → Option (List Char)
  next : Option command_t

/-- The command `main` passes to `prompt`: `memset(command, 0, ...)`. -/
def command_zero : command_t :=
  { name := [], background := false, auto_complete := false, arg_count := 0,
    args := [], redirects := fun _ => none, next := none }

/-- The state `parse_command` threads through its calls: the saved pointer of
`strtok` (a C static), and the heap: `heap k` is the unspecified contents of
the `k`-th `struct command_t` that `malloc` will hand out from now on. -/
structure parser_state where
  save : List Char
  heap : Nat → command_t

/-- The loop `for (i = arg_count - 2; i > 0; --i) args[i] = args[i - 1];`,
entered with `i = n`. -/
def shift_args : Nat → List (Option (List Char)) → List (Option (List Char))
  | 0, a => a
  | i + 1, a => shift_args i (a.set (i + 1) (a.getD i none))

/-- The body of the `while (1)` loop of `parse_command` for the token `tk`
that `strtok` has just returned (lines 151-232).  Every path through the body
ends in `continue`; the result is the state the next iteration starts from.
`recurse` is the recursive call of `parse_command` for a piped stage; `args`
holds the `arg_index` arguments stored so far. -/
def loop_body
    (recurse : List Char → command_t → parser_state → Option (command_t × parser_state))
    (tk : token) (st : parser_state) (command : command_t) (args : List (Option (List Char))) :
    Option (parser_state × command_t × List (Option (List Char))) :=
  -- arg = temp_buf; strcpy(arg, pch); len = strlen(arg);
  let len := tk.pch.length
  if len = 0 then some (st, command, args)
  else
    let (arg, len) := trim_left tk.pch len
    let (arg, len) := trim_right arg len
    let arg := arg.take len
    if len = 0 then some (st, command, args)
    else if arg = ['|'] then
      -- struct command_t *c = malloc(sizeof(struct command_t));
      let c := st.heap 0
      let st := { st with heap := fun k => st.heap (k + 1) }
      -- pch[l] = splitters[0]; index = 1; while (pch[index] is blank) index++;
      let mem := tk.pch ++ ' ' :: tk.tail.tail
      let rest := (mem.drop 1).dropWhile (fun c => c == ' ' || c == '\t')
      match recurse rest c st with
      | none => none
      | some (c, st) => some (st, { command with next := some c }, args)
    else if arg = ['&'] then some (st, command, args)
    else if arg.head? = some '<' then
      some (st, { command with
        redirects := Function.update command.redirects 0 (some (arg.drop 1)) }, args)
    else if arg.head? = some '>' then
      if len > 1 && arg.getD 1 NUL == '>' then
        some (st, { command with
          redirects := Function.update command.redirects 2 (some (arg.drop 2)) }, args)
      else
        some (st, { command with
          redirects := Function.update command.redirects 1 (some (arg.drop 1)) }, args)
    else
      let arg :=
        if len > 2 && ((arg.getD 0 NUL == '"' && arg.getD (len - 1) NUL == '"') ||
            (arg.getD 0 NUL == '\'' && arg.getD (len - 1) NUL == '\''))
        then (arg.take (len - 1)).drop 1 else arg
      some (st, command, args ++ [some arg])

/-- The `while (1)` loop of `parse_command` (lines 146-233): `strtok(NULL,
splitters)` until it returns `NULL`, running `loop_body` on every token. -/
def parse_loop
    (recurse : List Char → command_t → parser_state → Option (command_t × parser_state)) :
    Nat → parser_state → command_t → List (Option (List Char)) →
      Option (command_t × List (Option (List Char)) × parser_state)
  | 0, _, _, _ => none
  | fuel + 1, st, command, args =>
    match strtok is_splitter st.save with
    | (none, save) => some (command, args, { st with save := save })
    | (some tk, save) =>
      match loop_body recurse tk { st with save := save } command args with
      | none => none
      | some (st, command, args) => parse_loop recurse fuel st command args

/-- The function `parse_command(buf, command)`.  `buf` is the memory at the
pointer passed in, `command` the contents of the struct on entry. -/
def parse_command :
    Nat → List Char → command_t → parser_state → Option (command_t × parser_state)
  | 0, _, _, _ => none
  | fuel + 1, buf, command, st =>
    let len := strlen buf
    let (buf, len) := trim_left buf len
    let (buf, len) := trim_right buf len
    let command :=
      if len > 0 && buf.getD (len - 1) NUL == '?' then { command with auto_complete := true }
      else command
    let command :=
      if len > 0 && buf.getD (len - 1) NUL == '&' then { command with background := true }
      else command
    let (pch, save) := strtok is_splitter buf
    let command := { command with name := match pch with | none => [] | some tk => tk.pch }
    match parse_loop (parse_command fuel) fuel { st with save := save } command [] with
    | none => none
    | some (command, args, st) =>
      -- command->arg_count = arg_index; realloc(..., command->arg_count += 2);
      let arg_count := args.length + 2
      let a := shift_args (arg_count - 2) (args ++ [none, none])
      let a := a.set 0 (some command.name)
      let a := a.set (arg_count - 1) none
      some ({ command with arg_count := arg_count, args := a }, st)

/-- A call `parse_command(buf, command)` from outside the parser, as `prompt`
makes it: enough fuel for the whole of `buf`, no struct allocated yet. -/
def parse (junk : Nat → command_t) (buf : List Char) (command : command_t) : Option command_t :=
  (parse_command (buf.length + 2) buf command ⟨[], junk⟩).map Prod.fst

/-! ## The environment -/

/-- `const char *sysname = "dash";` -/
def sysname : List Char := "dash".toList

/-- `enum return_codes`. -/
inductive return_codes where
  | SUCCESS
  | EXIT
  | UNKNOWN
  deriving DecidableEq

/-- What the shell reads from its environment and from the file system.
`opendir d` is the list of the `d_name`s that `readdir` returns for the
directory `d`, in order, or `none` when `opendir` fails. -/
structure env_t where
  PATH : Option (List Char)
  USER : Option (List Char)
  hostname : List Char
  cwd : List Char
  opendir : List Char → Option (List (List Char))

/-- How `printf("%s", p)` shows a string pointer (glibc prints `(null)` for a
null pointer). -/
def show_str (p : Option (List Char)) : List Char := p.getD "(null)".toList

/-- The text `show_prompt` prints. -/
def show_prompt (env : env_t) : List Char :=
  show_str env.USER ++ '@' :: env.hostname ++ ':' :: env.cwd ++ ' ' :: sysname ++ "$ ".toList

/-! ## Completion -/

/-- A write `mem[i] = c`; the bytes between the end of the modelled memory and
`i`, if any, read as the terminator. -/
def poke (mem : List Char) (i : Nat) (c : Char) : List Char :=
  if i < mem.length then mem.set i c
  else mem ++ List.replicate (i - mem.length) NUL ++ [c]

/-- `strchr(buf, c)` for `c` other than the terminator: the offset of the first
`c` of the string at `buf`, or `none` for `NULL`. -/
def strchr : List Char → Char → Option Nat
  | [], _ => none
  | d :: buf, c =>
    if d == c then some 0
    else if d == NUL then none
    else (strchr buf c).map (fun n => n + 1)

/-- `strncmp(a, b, n) == 0` on two strings. -/
def strncmp_eq (a b : List Char) (n : Nat) : Bool := (cstr a).take n == (cstr b).take n

/-- `strcat(dst, src)`: `src` and a terminator written over the terminator of
the string at `dst`. -/
def strcat (dst src : List Char) : List Char :=
  dst.take (strlen dst) ++ src ++ NUL :: dst.drop (strlen dst + src.length + 1)

/-- The `readdir` loop of `autocomplete` over one directory (lines 574-583):
the entries other than `.` and `..` that start with `uncompleted_command`,
appended to `matched` (the C array `matches`). -/
def scan_dir (uncompleted_command : List Char) :
    List (List Char) → List (List Char) → List (List Char)
  | [], matched => matched
  | d_name :: entries, matched =>
    if cstr d_name = ['.'] ∨ cstr d_name = ['.', '.'] then
      scan_dir uncompleted_command entries matched
    else if strncmp_eq d_name uncompleted_command (strlen uncompleted_command) then
      scan_dir uncompleted_command entries (matched ++ [cstr d_name])
    else scan_dir uncompleted_command entries matched

/-- The loop `while (token != NULL) { ...; token = strtok(NULL, ":"); }` of
`autocomplete` (lines 570-587), entered with the current `token` and the saved
pointer of `strtok`. -/
def path_loop (env : env_t) (uncompleted_command : List Char) :
    Nat → Option token → List Char → List (List Char) → Option (List (List Char))
  | 0, _, _, _ => none
  | _ + 1, none, _, matched => some matched
  | fuel + 1, some tk, save, matched =>
    let matched :=
      match env.opendir tk.pch with
      | some entries => scan_dir uncompleted_command entries matched
      | none => matched
    let (tk, save) := strtok (fun c => c == ':') save
    path_loop env uncompleted_command fuel tk save matched

/-- The listing loop of the branch without a completion marker (lines
621-631): every entry of the current directory but `.` and `..`, printed as
`" %s\n"`. -/
def list_dir : List (List Char) → List Char
  | [] => []
  | d_name :: entries =>
    if cstr d_name ≠ ['.'] ∧ cstr d_name ≠ ['.', '.'] then
      ' ' :: cstr d_name ++ '\n' :: list_dir entries
    else list_dir entries

/-- The loop printing several matches, one per line (lines 605-608). -/
def print_matches : List (List Char) → List Char
  | [] => []
  | m :: matched => m ++ '\n' :: print_matches matched

/-- The result of `autocomplete`: the buffer, the index, and the text written
to the terminal. -/
structure completion where
  buf : List Char
  index : Nat
  out : List Char

/-- The function `autocomplete(buf, index)`. -/
def autocomplete (env : env_t) (buf : List Char) (index : Nat) : Option completion :=
  match env.PATH with
  | none => some ⟨buf, index, []⟩
  | some path =>
    -- char *token = strtok(path_copy, ":");
    let (tk, save) := strtok (fun c => c == ':') (cstr path)
    match strchr buf '?' with
    | some len =>
      -- strncpy(uncompleted_command, buf, len); uncompleted_command[len] = 0;
      let uncompleted_command := buf.take len
      match path_loop env uncompleted_command ((cstr path).length + 2) tk save [] with
      | none => none
      | some matched =>
        if matched.length = 1 then
          let buf := poke buf len NUL
          let u_len := strlen uncompleted_command
          let tail := (matched.headD []).drop u_len
          let buf := strcat buf tail
          some ⟨buf, strlen buf, tail⟩
        else if matched.length > 1 then
          some ⟨poke buf 0 NUL, 0, '\n' :: print_matches matched⟩
        else
          let buf := poke buf 0 NUL
          some ⟨buf, 0, "\nNo matches found\n".toList
            ++ show_str env.USER ++ "@hostname:".toList ++ env.cwd ++ ' ' :: sysname
            ++ "$ ".toList ++ cstr buf⟩
    | none =>
      let out :=
        match env.opendir ['.'] with
        | some entries => list_dir entries
        | none => []
      some ⟨poke buf 0 NUL, 0, out⟩

/-! ## The line reader -/

/-- The terminal settings `prompt` touches: the `ICANON` and `ECHO` bits of
`c_lflag`, and everything else in `struct termios`. -/
structure termios where
  icanon : Bool
  echo : Bool
  other : Nat
  deriving DecidableEq

/-- The variables of `prompt` that its loop updates: the line buffer and its
index, the history slot `oldbuf` (read only as a string), and the text written
to the terminal. -/
structure reader_state where
  buf : List Char
  index : Nat
  oldbuf : List Char
  out : List Char

/-- How one iteration of the loop of `prompt` ends. -/
inductive step where
  | continue (st : reader_state)
  | break (st : reader_state)
  | exit (st : reader_state)

/-- The three characters `prompt_backspace` writes. -/
def prompt_backspace : List Char := [Char.ofNat 8, ' ', Char.ofNat 8]

/-- The loop `while (index > 0) { prompt_backspace(); index--; }` of the
up-arrow branch: the text it writes. -/
def erase_line : Nat → List Char
  | 0 => []
  | index + 1 => prompt_backspace ++ erase_line index

/-- `strcpy(dst, src)` for a string `src`. -/
def strcpy (dst src : List Char) : List Char := src ++ NUL :: dst.drop (src.length + 1)

/-- One iteration of the `while (1)` loop of `prompt` (lines 291-339) on the
character `c` that `getchar` returned. -/
def prompt_step (env : env_t) (st : reader_state) (c : Char) : Option step :=
  -- handle tab
  if c.toNat = 9 then
    match autocomplete env (poke st.buf st.index '?') (st.index + 1) with
    | none => none
    | some r => some (.continue { st with buf := r.buf, index := r.index, out := st.out ++ r.out })
  -- handle backspace
  else if c.toNat = 127 then
    if st.index > 0 then
      some (.continue { st with index := st.index - 1, out := st.out ++ prompt_backspace })
    else some (.continue st)
  else if c.toNat = 27 ∨ c.toNat = 91 ∨ c.toNat = 66 ∨ c.toNat = 67 ∨ c.toNat = 68 then
    some (.continue st)
  -- up arrow
  else if c.toNat = 65 then
    let tmpbuf := cstr st.buf
    let buf := strcpy st.buf st.oldbuf
    some (.continue
      { buf := buf, index := 0 + strlen buf, oldbuf := tmpbuf,
        out := st.out ++ erase_line st.index ++ st.oldbuf })
  else
    -- putchar(c); buf[index++] = c;
    let st := { st with buf := poke st.buf st.index c, index := st.index + 1, out := st.out ++ [c] }
    if st.index ≥ 4096 - 1 then some (.break st)
    else if c = '\n' then some (.break st)
    else if c.toNat = 4 then some (.exit st)
    else some (.continue st)

/-- The `while (1)` loop of `prompt` reading the characters `input`; `none`
when the input runs out before the loop is left. -/
def prompt_loop (env : env_t) : reader_state → List Char → Option step
  | _, [] => none
  | st, c :: input =>
    match prompt_step env st c with
    | none => none
    | some (.continue st) => prompt_loop env st input
    | some r => some r

/-- What a call of `prompt` leaves behind. -/
structure prompt_result where
  code : return_codes
  term : termios
  command : Option command_t
  oldbuf : List Char
  out : List Char

/-- The function `prompt(command)`.  `term` is the terminal's settings on
entry, `oldbuf` the history slot (a C static), `buf0` the unspecified contents
of the local array `buf`, `input` what `getchar` will return. -/
def prompt (env : env_t) (junk : Nat → command_t) (term : termios) (oldbuf buf0 : List Char)
    (command : command_t) (input : List Char) : Option prompt_result :=
  -- tcgetattr(STDIN_FILENO, &backup_termios); new_termios = backup_termios;
  let backup_termios := term
  -- new_termios.c_lflag &= ~(ICANON | ECHO); tcsetattr(STDIN_FILENO, TCSANOW, &new_termios);
  let new_termios := { backup_termios with icanon := false, echo := false }
  let term := new_termios
  -- show_prompt(); buf[0] = 0;
  let st : reader_state := { buf := poke buf0 0 NUL, index := 0, oldbuf := oldbuf, out := show_prompt env }
  match prompt_loop env st input with
  | none => none
  | some (.exit st) =>
    -- if (c == 4) return EXIT;
    some { code := .EXIT, term := term, command := some command, oldbuf := st.oldbuf, out := st.out }
  | some (.continue st) | some (.break st) =>
    -- trim newline from the end
    let index := if st.index > 0 ∧ st.buf.getD (st.index - 1) NUL = '\n' then st.index - 1
      else st.index
    -- null terminate string
    let buf := poke st.buf index NUL
    -- strcpy(oldbuf, buf); parse_command(buf, command);
    let oldbuf := cstr buf
    let command := parse junk buf command
    -- restore the old settings
    let term := backup_termios
    some { code := .SUCCESS, term := term, command := command, oldbuf := oldbuf, out := st.out }

/-! ## Built-in commands -/

/-- What `process_command` asks of the operating system, in order. -/
inductive event where
  | chdir (path : Option (List Char))
  | print (text : List Char)
  | fork
  deriving DecidableEq

/-- The function `process_command(command)` up to its call of `fork` (lines
387-410).  `chdir p` is the outcome of the system call: `none` for success,
`some msg` for failure with `strerror(errno) = msg`.  The result is the value
returned, or `none` when the function goes on to `fork`, whose child and
parent code is outside this embedding, and the events so far. -/
def process_command (chdir : Option (List Char) → Option (List Char)) (command : command_t) :
    Option return_codes × List event :=
  if command.name = [] then (some .SUCCESS, [])
  else if command.name = "exit".toList then (some .EXIT, [])
  else if command.name = "cd".toList ∧ command.arg_count > 0 then
    -- r = chdir(command->args[0]);
    match chdir (command.args.getD 0 none) with
    | some msg =>
      (some .SUCCESS,
        [.chdir (command.args.getD 0 none),
         .print ('-' :: sysname ++ ": ".toList ++ command.name ++ ": ".toList ++ msg ++ ['\n'])])
    | none => (some .SUCCESS, [.chdir (command.args.getD 0 none)])
  else (none, [.fork])

/-! ## Specification-side notions -/

/-- Splitting on blanks, one character at a time: `cur` is the token being
read. -/
def tokens_aux : List Char → List Char → List (List Char)
  | cur, [] => if cur = [] then [] else [cur]
  | cur, c :: cs =>
    if is_splitter c then
      (if cur = [] then tokens_aux [] cs else cur :: tokens_aux [] cs)
    else tokens_aux (cur ++ [c]) cs

/-- The whitespace-separated tokens of a line (whitespace is the code's
`splitters`: space and tab). -/
def tokens (s : List Char) : List (List Char) := tokens_aux [] s

/-- The quote rule: a token of more than two characters whose first and last
characters are the same quote character. -/
def is_quoted (t : List Char) : Bool :=
  decide (t.length > 2) &&
    ((t.head? == some '"' && t.getLast? == some '"') ||
     (t.head? == some '\'' && t.getLast? == some '\''))

/-- A token with its first and last character removed when the quote rule
applies. -/
def unquote (t : List Char) : List Char := if is_quoted t then t.dropLast.tail else t

/-- A token beginning with `<` or `>`. -/
def is_redirect (t : List Char) : Bool := t.head? == some '<' || t.head? == some '>'

/-- The positional arguments given by a list of tokens: every token that is
not `&` and does not begin with `<` or `>`, after the quote rule. -/
def positional (ts : List (List Char)) : List (List Char) :=
  (ts.filter (fun t => t != ['&'] && !is_redirect t)).map unquote

/-- The text after the leading `<` of the last token beginning with `<`. -/
def last_stdin (ts : List (List Char)) : Option (List Char) :=
  ((ts.filter (fun t => t.head? == some '<')).getLast?).map (List.drop 1)

/-- The text after the leading `>>` of the last token beginning with `>>`. -/
def last_append (ts : List (List Char)) : Option (List Char) :=
  ((ts.filter (fun t => ['>', '>'].isPrefixOf t)).getLast?).map (List.drop 2)

/-- The text after the leading `>` of the last token beginning with `>` but
not with `>>`. -/
def last_truncate (ts : List (List Char)) : Option (List Char) :=
  ((ts.filter (fun t => t.head? == some '>' && !(['>', '>'].isPrefixOf t))).getLast?).map
    (List.drop 1)

/-- What the loop body does with a token other than `|`, read off the token
itself. -/
def token_step (ca : command_t × List (Option (List Char))) (t : List Char) :
    command_t × List (Option (List Char)) :=
  if t = ['&'] then ca
  else if t.head? = some '<' then
    ({ ca.1 with redirects := Function.update ca.1.redirects 0 (some (t.drop 1)) }, ca.2)
  else if t.head? = some '>' then
    if ['>', '>'].isPrefixOf t then
      ({ ca.1 with redirects := Function.update ca.1.redirects 2 (some (t.drop 2)) }, ca.2)
    else
      ({ ca.1 with redirects := Function.update ca.1.redirects 1 (some (t.drop 1)) }, ca.2)
  else (ca.1, ca.2 ++ [some (unquote t)])

/-- A line with its leading and trailing blanks removed. -/
def trimmed (line : List Char) : List Char :=
  (line.dropWhile is_splitter).rdropWhile is_splitter

/-- The command as `parse_command` has it when it enters its loop on the
trimmed line `s`: the two flags and the name are set. -/
def entry_command (command : command_t) (s : List Char) : command_t :=
  let command :=
    if s.getLast? = some '?' then { command with auto_complete := true } else command
  let command :=
    if s.getLast? = some '&' then { command with background := true } else command
  { command with name := (tokens s).headD [] }

/-- The memory that follows the trimmed line once `parse_command` has trimmed
`line ++ z`: a terminator over every trailing blank, then `z` (which starts
with the line's own terminator). -/
def padding (line z : List Char) : List Char :=
  List.replicate ((line.dropWhile is_splitter).length - (trimmed line).length) NUL ++ z

/-- The end of `parse_command` (lines 234-251): the argument array is
reframed and the count set. -/
def reframe (command : command_t) (args : List (Option (List Char))) : command_t :=
  { command with arg_count := args.length + 2, args := some command.name :: args ++ [none] }

/-- The end of `parse_command` on the result of its loop. -/
def finish (r : command_t × List (Option (List Char)) × parser_state) :
    command_t × parser_state :=
  (reframe r.1 r.2.1, r.2.2)

/-- The stage `parse_command` builds from `command` for a line none of whose
tokens after the first is `|`. -/
def single_stage (command : command_t) (line : List Char) : command_t :=
  reframe ((tokens line).tail.foldl token_step (entry_command command (trimmed line), [])).1
    ((tokens line).tail.foldl token_step (entry_command command (trimmed line), [])).2

/-- The tokens of the first stage of a line: those after the command name and
before the first `|`. -/
def stage_tokens (line : List Char) : List (List Char) :=
  (tokens line).tail.takeWhile (fun t => t != ['|'])

/-- The first stage `parse_command` builds from `command` for a line, given
what it leaves in the `next` field. -/
def first_stage (command : command_t) (line : List Char) (next : Option command_t) :
    command_t :=
  reframe
    { ((stage_tokens line).foldl token_step
          (entry_command command (trimmed line), [])).1 with next := next }
    ((stage_tokens line).foldl token_step (entry_command command (trimmed line), [])).2

/-- A text with no blank at either end (and at least one character). -/
def is_core (s : List Char) : Prop :=
  s ≠ [] ∧ (∀ c, s.head? = some c → is_splitter c = false)
    ∧ (∀ c, s.getLast? = some c → is_splitter c = false)

/-- A text made of blanks only. -/
def all_blank (s : List Char) : Prop := ∀ c ∈ s, is_splitter c = true

/-- A file name as the redirection example takes it: not empty, and with no
blank, quote, `<`, `>`, `|`, `&` or terminator in it. -/
def clean_name (f : List Char) : Prop :=
  f ≠ [] ∧ ∀ c ∈ f, is_splitter c = false ∧ c ≠ '"' ∧ c ≠ '\'' ∧ c ≠ '<' ∧ c ≠ '>'
    ∧ c ≠ '|' ∧ c ≠ '&' ∧ c ≠ NUL

/-- Words joined by single spaces. -/
def join_spaces : List (List Char) → List Char
  | [] => []
  | [w] => w
  | w :: v :: ws => w ++ ' ' :: join_spaces (v :: ws)

/-- The positional arguments of a stage: its argument array without the first
entry (the name) and the last (the `NULL` terminator). -/
def stage_args (c : command_t) : List (List Char) := (c.args.tail.dropLast).reduceOption

/-- The name and positional arguments of a stage joined by single spaces. -/
def rejoin (c : command_t) : List Char := join_spaces (c.name :: stage_args c)

/-- Every token `strtok` yields for the memory `s`, in order. -/
def strtok_all (delim : Char → Bool) : Nat → List Char → List (List Char)
  | 0, _ => []
  | fuel + 1, s =>
    match strtok delim s with
    | (none, _) => []
    | (some tk, save) => tk.pch :: strtok_all delim fuel save

/-- The directories of the search path: the non-empty fields of `path`
between colons. -/
def search_dirs (path : List Char) : List (List Char) :=
  strtok_all (fun c => c == ':') ((cstr path).length + 1) (cstr path)

/-- The names listed by the directories of the search path, in the order the
directories are searched; a directory that cannot be opened lists nothing. -/
def search_entries (env : env_t) (path : List Char) : List (List Char) :=
  (search_dirs path).flatMap (fun d => ((env.opendir d).getD []).map cstr)

/-- An entry that completion may offer for the prefix `p`: not `.` or `..`,
and starting with `p`. -/
def is_match (p e : List Char) : Bool :=
  decide (e ≠ ['.']) && decide (e ≠ ['.', '.']) && p.isPrefixOf e

/-- An environment whose search path is `/bin:/usr/bin`, where `/usr/bin`
holds `gitlog`. -/
def env_gitlog : env_t :=
  { PATH := some "/bin:/usr/bin".toList, USER := some "user".toList,
    hostname := "host".toList, cwd := "/home/user".toList,
    opendir := fun d =>
      if d = "/bin".toList then some [".".toList, "..".toList, "ls".toList, "cat".toList]
      else if d = "/usr/bin".toList then
        some [".".toList, "..".toList, "gitlog".toList, "wc".toList]
      else none }

/-- A heap whose free blocks hold what an earlier command left in them: every
redirect slot points to the string `x`, and `next` is set. -/
def junk_dirty : Nat → command_t :=
  fun _ => { command_zero with redirects := fun _ => some ['x'], next := some command_zero }

/-- A file system in which `/tmp` is the only directory. -/
def chdir_tmp_only (path : Option (List Char)) : Option (List Char) :=
  if path = some "/tmp".toList then none else some "No such file or directory".toList

/-- A region of memory that starts with the terminator (or is empty, which
reads as the terminator). -/
def terminated (z : List Char) : Prop := z.headD NUL = NUL

/-- The last character of `s`, if any, is a blank. -/
def ends_blank (s : List Char) : Prop := ∀ c, s.getLast? = some c → is_splitter c = true

/-- The text `s` can be followed by the memory `y` without its last token
running on into `y`. -/
def boundary (s y : List Char) : Prop := ends_blank s ∨ terminated y

/-- The memory at the end of the first token of `s`. -/
def first_end (s : List Char) : List Char :=
  (s.dropWhile is_splitter).dropWhile (fun c => !is_splitter c)

/-- The memory just after the blank that ends the first token of `s`. -/
def after_first (s : List Char) : List Char := (first_end s).tail

/-! ## Lemmas on trimming and `strtok` -/

theorem is_splitter_NUL : is_splitter NUL = false := by decide

theorem trim_left_nil_len (buf : List Char) : trim_left buf 0 = (buf, 0) := by
  cases buf <;> rfl

theorem trim_left_append (s z : List Char) :
    trim_left (s ++ z) s.length
      = (s.dropWhile is_splitter ++ z, (s.dropWhile is_splitter).length) := by
  induction s with
  | nil => simp [trim_left_nil_len]
  | cons c s ih =>
    by_cases h : is_splitter c = true
    · simp [trim_left, h, ih]
    · simp [trim_left, h]

theorem getD_append_length {α : Type} (s z : List α) (c d : α) :
    (s ++ c :: z).getD s.length d = c := by
  induction s with
  | nil => rfl
  | cons a s ih => simpa using ih

theorem set_append_length {α : Type} (s z : List α) (c x : α) :
    (s ++ c :: z).set s.length x = s ++ x :: z := by
  induction s with
  | nil => rfl
  | cons a s ih => simpa using ih

theorem trim_right_append (s z : List Char) :
    trim_right (s ++ z) s.length
      = (s.rdropWhile is_splitter
          ++ List.replicate (s.length - (s.rdropWhile is_splitter).length) NUL ++ z,
         (s.rdropWhile is_splitter).length) := by
  induction s using List.reverseRecOn generalizing z with
  | nil => simp [trim_right]
  | append_singleton s c ih =>
    have hget : (s ++ [c] ++ z).getD s.length NUL = c := by
      simpa using getD_append_length s z c NUL
    have hset : (s ++ [c] ++ z).set s.length NUL = s ++ (NUL :: z) := by
      simpa using set_append_length s z c NUL
    by_cases h : is_splitter c = true
    · have hle : (s.rdropWhile is_splitter).length ≤ s.length :=
        ( List.rdropWhile_prefix is_splitter s).length_le
      rw [List.length_append, List.length_singleton, trim_right, hget, if_pos h, hset, ih,
        List.rdropWhile_concat_pos _ _ _ h]
      have : s.length + 1 - (s.rdropWhile is_splitter).length
          = (s.length - (s.rdropWhile is_splitter).length) + 1 := by omega
      rw [this, List.replicate_succ']
      simp
    · rw [List.length_append, List.length_singleton, trim_right, hget, if_neg h,
        List.rdropWhile_concat_neg _ _ _ h]
      simp

theorem strlen_append (s z : List Char) (hs : NUL ∉ s) (hz : terminated z) :
    strlen (s ++ z) = s.length := by
  unfold strlen
  induction s with
  | nil =>
    cases z with
    | nil => rfl
    | cons d r =>
      have : d = NUL := hz
      subst this
      simp [List.takeWhile]
  | cons c s ih =>
    have hc : c ≠ NUL := fun h => hs (by simp [h])
    have hs2 : NUL ∉ s := fun h => hs (by simp [h])
    have : (c != NUL) = true := by simpa using hc
    simp [List.takeWhile_cons, this, ih hs2]

/-! ## Lemmas on tokens -/

theorem takeWhile_dropWhile_stop {α : Type} (P : α → Bool) (t u : List α)
    (ht : ∀ c ∈ t, P c = true) (hu : ∀ c, u.head? = some c → P c = false) :
    (t ++ u).takeWhile P = t ∧ (t ++ u).dropWhile P = u := by
  induction t with
  | nil =>
    cases u with
    | nil => simp
    | cons d r =>
      have := hu d rfl
      simp [List.takeWhile_cons, List.dropWhile_cons, this]
  | cons c t ih =>
    have hc := ht c (by simp)
    have := ih (fun x hx => ht x (by simp [hx]))
    simp [List.takeWhile_cons, List.dropWhile_cons, hc, this]

theorem tokens_aux_stop (t r cur : List Char) (ht : ∀ c ∈ t, is_splitter c = false)
    (hr : ∀ c, r.head? = some c → is_splitter c = true) :
    tokens_aux cur (t ++ r)
      = if cur ++ t = [] then tokens_aux [] r else (cur ++ t) :: tokens_aux [] r := by
  induction t generalizing cur with
  | nil =>
    cases r with
    | nil => simp [tokens_aux]
    | cons w r =>
      have := hr w rfl
      by_cases hc : cur = [] <;> simp [tokens_aux, this, hc]
  | cons c t ih =>
    have hc := ht c (by simp)
    have := ih (cur ++ [c]) (fun x hx => ht x (by simp [hx]))
    simp [tokens_aux, hc, this]

theorem tokens_dropWhile (s : List Char) : tokens (s.dropWhile is_splitter) = tokens s := by
  induction s with
  | nil => rfl
  | cons c s ih =>
    by_cases h : is_splitter c = true
    · simp only [List.dropWhile_cons, h, if_true, ih]
      simp [tokens, tokens_aux, h]
    · simp [List.dropWhile_cons, h]

theorem dropWhile_head_false {α : Type} (P : α → Bool) (l : List α) :
    ∀ c, (l.dropWhile P).head? = some c → P c = false := by
  induction l with
  | nil => simp
  | cons a l ih =>
    intro c
    by_cases h : P a = true
    · simpa [List.dropWhile_cons, h] using ih c
    · simp only [List.dropWhile_cons, h, Bool.false_eq_true, if_false, List.head?_cons,
        Option.some.injEq]
      rintro rfl
      simpa using h

theorem first_end_head (s : List Char) :
    ∀ c, (first_end s).head? = some c → is_splitter c = true := by
  intro c hc
  have := dropWhile_head_false (fun c => !is_splitter c) _ c hc
  simpa using this

theorem tokens_tail_blank (r : List Char) (hr : ∀ c, r.head? = some c → is_splitter c = true) :
    tokens r.tail = tokens r := by
  cases r with
  | nil => rfl
  | cons w r =>
    have := hr w rfl
    simp [tokens, tokens_aux, this]

theorem tokens_unfold (s : List Char) :
    tokens s = if s.dropWhile is_splitter = [] then []
      else (s.dropWhile is_splitter).takeWhile (fun c => !is_splitter c)
        :: tokens (after_first s) := by
  rw [← tokens_dropWhile s]
  have hsplit := List.takeWhile_append_dropWhile (fun c => !is_splitter c)
    (s.dropWhile is_splitter)
  have h := tokens_aux_stop ((s.dropWhile is_splitter).takeWhile (fun c => !is_splitter c))
    (first_end s) []
    (by
      intro c hc
      have := List.mem_takeWhile_imp hc
      simpa using this)
    (first_end_head s)
  rw [first_end, hsplit] at h
  rw [tokens, h, after_first, tokens_tail_blank _ (first_end_head s)]
  by_cases he : s.dropWhile is_splitter = []
  · simp [he, tokens, tokens_aux]
  · have hne : (s.dropWhile is_splitter).takeWhile (fun c => !is_splitter c) ≠ [] := by
      cases hd : s.dropWhile is_splitter with
      | nil => exact absurd hd he
      | cons c r =>
        have := dropWhile_head_false is_splitter s c (by simp [hd])
        simp [List.takeWhile_cons, this]
    simp [he, hne, tokens, first_end]

theorem tokens_cons {s t : List Char} {ts : List (List Char)} (h : tokens s = t :: ts) :
    s.dropWhile is_splitter ≠ []
      ∧ t = (s.dropWhile is_splitter).takeWhile (fun c => !is_splitter c)
      ∧ ts = tokens (after_first s) := by
  rw [tokens_unfold] at h
  by_cases he : s.dropWhile is_splitter = []
  · simp [he] at h
  · simp only [he, if_false, List.cons.injEq] at h
    exact ⟨he, h.1.symm, h.2.symm⟩

theorem tokens_nil {s : List Char} (h : tokens s = []) : ∀ c ∈ s, is_splitter c = true := by
  rw [tokens_unfold] at h
  by_cases he : s.dropWhile is_splitter = []
  · simpa [List.dropWhile_eq_nil_iff] using he
  · simp [he] at h

theorem first_split (s : List Char) :
    s.dropWhile is_splitter
      = (s.dropWhile is_splitter).takeWhile (fun c => !is_splitter c) ++ first_end s := by
  rw [first_end, List.takeWhile_append_dropWhile]

theorem first_token_ne_nil {s t : List Char} {ts : List (List Char)} (h : tokens s = t :: ts) :
    t ≠ [] := by
  obtain ⟨he, ht, _⟩ := tokens_cons h
  cases hd : s.dropWhile is_splitter with
  | nil => exact absurd hd he
  | cons c r =>
    have := dropWhile_head_false is_splitter s c (by simp [hd])
    rw [ht, hd]
    simp [List.takeWhile_cons, this]

theorem after_first_suffix (s : List Char) : after_first s <:+ s :=
  (List.tail_suffix _).trans
    ((List.dropWhile_suffix _).trans (List.dropWhile_suffix _))

theorem after_first_length {s t : List Char} {ts : List (List Char)} (h : tokens s = t :: ts) :
    (after_first s).length < s.length := by
  have hne := first_token_ne_nil h
  obtain ⟨_, ht, _⟩ := tokens_cons h
  have h1 := congrArg List.length (first_split s)
  rw [List.length_append, ← ht] at h1
  have h2 : (s.dropWhile is_splitter).length ≤ s.length :=
    (List.dropWhile_suffix is_splitter).length_le
  have h3 : (after_first s).length ≤ (first_end s).length := by
    simp [after_first]
  have h4 : 0 < t.length := List.length_pos.mpr hne
  omega

theorem after_first_not_mem {s : List Char} {c : Char} (h : c ∉ s) : c ∉ after_first s :=
  fun hc => h ((after_first_suffix s).subset hc)

/-- Induction along the tokens of a line. -/
theorem tokens_induction {motive : List Char → Prop}
    (nil : ∀ s, tokens s = [] → motive s)
    (cons : ∀ s t ts, tokens s = t :: ts → motive (after_first s) → motive s) :
    ∀ s, motive s := by
  have key : ∀ n (s : List Char), s.length = n → motive s := by
    intro n
    induction n using Nat.strong_induction_on with
    | _ n ih =>
      intro s hn
      cases ht : tokens s with
      | nil => exact nil s ht
      | cons t ts =>
        exact cons s t ts ht (ih _ (hn ▸ after_first_length ht) _ rfl)
  exact fun s => key _ s rfl

theorem token_props (s : List Char) :
    ∀ t ∈ tokens s, t ≠ [] ∧ (∀ c ∈ t, is_splitter c = false) ∧ (NUL ∉ s → NUL ∉ t) := by
  induction s using tokens_induction with
  | nil s h => simp [h]
  | cons s t ts h ih =>
    obtain ⟨_, ht, hts⟩ := tokens_cons h
    intro u hu
    rw [h, List.mem_cons] at hu
    rcases hu with rfl | hu
    · refine ⟨first_token_ne_nil h, ?_, ?_⟩
      · intro c hc
        rw [ht] at hc
        simpa using List.mem_takeWhile_imp hc
      · intro hs hc
        rw [ht] at hc
        exact hs ((List.dropWhile_suffix _).subset (( List.takeWhile_prefix _).subset hc))
    · rw [hts] at hu
      obtain ⟨h1, h2, h3⟩ := ih u hu
      exact ⟨h1, h2, fun hs => h3 (after_first_not_mem hs)⟩

/-! ## Tokens as the pieces between blanks -/

theorem tokens_aux_eq_splitOnP (s cur : List Char) :
    tokens_aux cur s
      = ((s.splitOnP is_splitter).modifyHead (fun t => cur ++ t)).filter (fun t => t != []) := by
  induction s generalizing cur with
  | nil =>
    by_cases hc : cur = [] <;> simp [tokens_aux, List.splitOnP_nil, List.filter_cons, hc]
  | cons c s ih =>
    rw [List.splitOnP_cons, tokens_aux]
    by_cases h : is_splitter c = true
    · have h0 := ih []
      simp only [List.nil_append] at h0
      have hid : (s.splitOnP is_splitter).modifyHead (fun t => t) = s.splitOnP is_splitter := by
        cases s.splitOnP is_splitter <;> simp
      rw [hid] at h0
      by_cases hc : cur = [] <;> simp [h, hc, List.filter_cons, h0]
    · have h1 := ih (cur ++ [c])
      simp only [h, Bool.false_eq_true, if_false]
      rw [h1]
      cases s.splitOnP is_splitter with
      | nil => simp
      | cons t ts => simp

/-- The tokens of a line are the non-empty pieces between blanks. -/
theorem tokens_eq_splitOnP (s : List Char) :
    tokens s = (s.splitOnP is_splitter).filter (fun t => t != []) := by
  have := tokens_aux_eq_splitOnP s []
  simp only [List.nil_append] at this
  have hid : (s.splitOnP is_splitter).modifyHead (fun t => t) = s.splitOnP is_splitter := by
    cases s.splitOnP is_splitter <;> simp
  rw [hid] at this
  exact this

/-! ## `strtok` on a line followed by further memory -/

theorem strtok_blank (s y : List Char) (h : tokens s = []) :
    strtok is_splitter (s ++ y) = strtok is_splitter y := by
  unfold strtok
  rw [List.dropWhile_append_of_pos (tokens_nil h)]

theorem ends_blank_first_end {s : List Char} (hs : ends_blank s)
    (hne : s.dropWhile is_splitter ≠ []) : first_end s ≠ [] := by
  intro he
  have hsp := first_split s
  rw [he, List.append_nil] at hsp
  have hsuf : s.dropWhile is_splitter <:+ s := List.dropWhile_suffix _
  obtain ⟨a, ha⟩ := hsuf
  have hlast : s.getLast? = (s.dropWhile is_splitter).getLast? := by
    conv_lhs => rw [← ha]
    rw [List.getLast?_append_of_ne_nil _ hne]
  cases hl : (s.dropWhile is_splitter).getLast? with
  | none => simp [hne] at hl
  | some c =>
    have h1 := hs c (hlast.trans hl)
    have hmem : c ∈ (s.dropWhile is_splitter) := List.mem_of_getLast?_eq_some hl
    rw [hsp] at hmem
    have := List.mem_takeWhile_imp hmem
    simp [h1] at this

theorem boundary_after_first {s y : List Char} (h : boundary s y) : boundary (after_first s) y := by
  rcases h with h | h
  · left
    intro c hc
    obtain ⟨a, ha⟩ := after_first_suffix s
    have hne : after_first s ≠ [] := by
      intro he
      simp [he] at hc
    apply h c
    rw [← ha, List.getLast?_append_of_ne_nil _ hne]
    exact hc
  · exact Or.inr h

theorem strtok_cons {s t : List Char} {ts : List (List Char)} (y : List Char)
    (h : tokens s = t :: ts) (hs : NUL ∉ s) (hb : boundary s y) :
    strtok is_splitter (s ++ y) = (some ⟨t, first_end s ++ y⟩, after_first s ++ y) := by
  obtain ⟨hne, ht, _⟩ := tokens_cons h
  have hdrop : (s ++ y).dropWhile is_splitter = s.dropWhile is_splitter ++ y := by
    rw [List.dropWhile_append]
    simp [hne]
  have hhead : ∀ c, (first_end s ++ y).head? = some c →
      (fun c => !is_splitter c && c != NUL) c = false := by
    intro c hc
    cases hfe : first_end s with
    | nil =>
      rw [hfe, List.nil_append] at hc
      rcases hb with hb | hb
      · exact absurd hfe (ends_blank_first_end hb hne)
      · cases y with
        | nil => simp at hc
        | cons d r =>
          have hd : d = NUL := hb
          simp only [List.head?_cons, Option.some.injEq] at hc
          subst hc
          simp [hd]
    | cons w r =>
      rw [hfe] at hc
      simp only [List.cons_append, List.head?_cons, Option.some.injEq] at hc
      subst hc
      have := first_end_head s w (by simp [hfe])
      simp [this]
  have hall : ∀ c ∈ t, (fun c => !is_splitter c && c != NUL) c = true := by
    intro c hc
    obtain ⟨_, h2, h3⟩ := token_props s t (by simp [h])
    have hn : c ≠ NUL := fun e => h3 hs (e ▸ hc)
    simp [h2 c hc, hn]
  have hstop := takeWhile_dropWhile_stop _ t (first_end s ++ y) hall hhead
  have hmem : s.dropWhile is_splitter ++ y = t ++ (first_end s ++ y) := by
    rw [← List.append_assoc, ht, ← first_split]
  unfold strtok
  rw [hdrop, hmem]
  cases htc : t with
  | nil => exact absurd htc (first_token_ne_nil h)
  | cons c t' =>
    have hcn : c ≠ NUL := by
      obtain ⟨_, _, h3⟩ := token_props s t (by simp [h])
      intro e
      exact h3 hs (by simp [htc, e])
    rw [htc] at hstop
    simp only [List.cons_append] at hstop ⊢
    have hcb : (c == NUL) = false := by simpa using hcn
    simp only [hcb, Bool.false_eq_true, if_false, hstop.1, hstop.2]
    congr 1
    cases hfe : first_end s with
    | nil =>
      rcases hb with hb | hb
      · exact absurd hfe (ends_blank_first_end hb hne)
      · cases y with
        | nil => simp [after_first, hfe]
        | cons d r =>
          have hd : d = NUL := hb
          simp [after_first, hfe, hd]
    | cons w r =>
      have hw : w ≠ NUL := by
        intro e
        apply hs
        have : w ∈ first_end s := by simp [hfe]
        exact (List.dropWhile_suffix _).subset ((List.dropWhile_suffix _).subset (e ▸ this))
      have hwb : (w == NUL) = false := by simpa using hw
      simp [after_first, hfe, hwb]

/-! ## The loop of `parse_command`, token by token -/

theorem trim_left_token (t : List Char) (h : ∀ c ∈ t, is_splitter c = false) :
    trim_left t t.length = (t, t.length) := by
  have := trim_left_append t []
  have hd : t.dropWhile is_splitter = t := by
    cases t with
    | nil => rfl
    | cons c t => simp [List.dropWhile_cons, h c (by simp)]
  simpa [hd] using this

theorem trim_right_token (t : List Char) (h : ∀ c ∈ t, is_splitter c = false) :
    trim_right t t.length = (t, t.length) := by
  have := trim_right_append t []
  have hd : t.rdropWhile is_splitter = t := by
    rw [List.rdropWhile_eq_self_iff]
    intro hl
    simp [h _ (List.getLast_mem hl)]
  simpa [hd] using this

theorem getD_zero_eq (t : List Char) (q : Char) (hq : q ≠ NUL) :
    (t.getD 0 NUL == q) = (t.head? == some q) := by
  cases t with
  | nil =>
    have : (NUL == q) = false := by simpa using fun e => hq e.symm
    simp [this]
  | cons c t => simp

theorem getD_last_eq (t : List Char) (q : Char) (hq : q ≠ NUL) :
    (t.getD (t.length - 1) NUL == q) = (t.getLast? == some q) := by
  induction t using List.reverseRecOn with
  | nil =>
    have : (NUL == q) = false := by simpa using fun e => hq e.symm
    simp [this]
  | append_singleton t c _ =>
    have := getD_append_length t [] c NUL
    simp [this]

theorem take_drop_eq (t : List Char) : (t.take (t.length - 1)).drop 1 = t.dropLast.tail := by
  rw [List.dropLast_eq_take]
  simp

theorem second_gt_eq (t : List Char) (h : t.head? = some '>') :
    (decide (t.length > 1) && t.getD 1 NUL == '>') = ['>', '>'].isPrefixOf t := by
  cases t with
  | nil => simp at h
  | cons c t =>
    simp only [List.head?_cons, Option.some.injEq] at h
    subst h
    cases t with
    | nil => simp [List.isPrefixOf]
    | cons d t => simp [List.isPrefixOf, eq_comm]

theorem loop_body_token
    (recurse : List Char → command_t → parser_state → Option (command_t × parser_state))
    (t e : List Char) (st : parser_state) (command : command_t)
    (args : List (Option (List Char)))
    (hne : t ≠ []) (hsp : ∀ c ∈ t, is_splitter c = false) (hp : t ≠ ['|']) :
    loop_body recurse ⟨t, e⟩ st command args
      = some (st, (token_step (command, args) t).1, (token_step (command, args) t).2) := by
  have hlen : t.length ≠ 0 := by simpa using hne
  unfold loop_body token_step
  simp only [hlen, if_false, trim_left_token t hsp, trim_right_token t hsp, List.take_length, hp]
  by_cases h1 : t = ['&']
  · simp [h1]
  · simp only [h1, if_false]
    by_cases h2 : t.head? = some '<'
    · simp [h2]
    · simp only [h2, if_false]
      by_cases h3 : t.head? = some '>'
      · simp only [h3, if_true, second_gt_eq t h3]
        by_cases h4 : ['>', '>'].isPrefixOf t = true <;> simp [h4]
      · simp only [h3, if_false]
        have e1 := getD_zero_eq t '"' (by decide)
        have e2 := getD_zero_eq t '\'' (by decide)
        have e3 := getD_last_eq t '"' (by decide)
        have e4 := getD_last_eq t '\'' (by decide)
        simp only [e1, e2, e3, e4, take_drop_eq, unquote, is_quoted]

theorem strtok_terminated (z : List Char) (hz : terminated z) :
    strtok is_splitter z = (none, z) := by
  cases z with
  | nil => rfl
  | cons d r =>
    have hd : d = NUL := hz
    subst hd
    simp [strtok, List.dropWhile_cons, is_splitter_NUL]

theorem loop_end
    (recurse : List Char → command_t → parser_state → Option (command_t × parser_state))
    (fuel : Nat) (z : List Char) (a : Nat → command_t) (command : command_t)
    (args : List (Option (List Char))) (hz : terminated z) :
    parse_loop recurse (fuel + 1) ⟨z, a⟩ command args = some (command, args, ⟨z, a⟩) := by
  simp [parse_loop, strtok_terminated z hz]

theorem loop_tokens
    (recurse : List Char → command_t → parser_state → Option (command_t × parser_state))
    (y : List Char) :
    ∀ s, NUL ∉ s → boundary s y → (∀ t ∈ tokens s, t ≠ ['|']) →
      ∀ (fuel : Nat) (a : Nat → command_t) (command : command_t) (args : List (Option (List Char))),
        parse_loop recurse (fuel + (tokens s).length) ⟨s ++ y, a⟩ command args
          = parse_loop recurse fuel ⟨y, a⟩
              ((tokens s).foldl token_step (command, args)).1
              ((tokens s).foldl token_step (command, args)).2 := by
  intro s
  induction s using tokens_induction with
  | nil s h =>
    intro _ _ _ fuel a command args
    rw [h]
    cases fuel with
    | zero => rfl
    | succ fuel => simp [parse_loop, strtok_blank s y h]
  | cons s t ts h ih =>
    intro hs hb hp fuel a command args
    obtain ⟨_, _, hts⟩ := tokens_cons h
    obtain ⟨h1, h2, _⟩ := token_props s t (by simp [h])
    have hpt : t ≠ ['|'] := hp t (by simp [h])
    have ih' := ih (after_first_not_mem hs) (boundary_after_first hb)
      (fun u hu => hp u (by rw [h, hts]; exact List.mem_cons_of_mem _ hu))
    rw [h, List.length_cons, ← Nat.add_assoc]
    simp only [parse_loop, strtok_cons y h hs hb,
      loop_body_token recurse t _ _ command args h1 h2 hpt, List.foldl_cons]
    have := ih' fuel a (token_step (command, args) t).1 (token_step (command, args) t).2
    rw [← hts] at this
    exact this

/-! ## The fold of `token_step` against the specification-side notions -/

theorem token_step_fields (ca : command_t × List (Option (List Char))) (t : List Char) :
    (token_step ca t).1.name = ca.1.name
      ∧ (token_step ca t).1.background = ca.1.background
      ∧ (token_step ca t).1.auto_complete = ca.1.auto_complete
      ∧ (token_step ca t).1.next = ca.1.next := by
  unfold token_step
  split_ifs <;> simp

theorem fold_fields (ts : List (List Char)) (ca : command_t × List (Option (List Char))) :
    (ts.foldl token_step ca).1.name = ca.1.name
      ∧ (ts.foldl token_step ca).1.background = ca.1.background
      ∧ (ts.foldl token_step ca).1.auto_complete = ca.1.auto_complete
      ∧ (ts.foldl token_step ca).1.next = ca.1.next := by
  induction ts generalizing ca with
  | nil => simp
  | cons t ts ih =>
    obtain ⟨h1, h2, h3, h4⟩ := ih (token_step ca t)
    obtain ⟨g1, g2, g3, g4⟩ := token_step_fields ca t
    simp only [List.foldl_cons]
    exact ⟨h1.trans g1, h2.trans g2, h3.trans g3, h4.trans g4⟩

theorem fold_args (ts : List (List Char)) (ca : command_t × List (Option (List Char))) :
    (ts.foldl token_step ca).2 = ca.2 ++ (positional ts).map some := by
  induction ts generalizing ca with
  | nil => simp [positional]
  | cons t ts ih =>
    rw [List.foldl_cons, ih]
    unfold token_step positional
    by_cases h1 : t = ['&']
    · simp [h1]
    · by_cases h2 : t.head? = some '<'
      · simp [h1, h2, is_redirect, List.filter_cons]
      · by_cases h3 : t.head? = some '>'
        · by_cases h4 : ['>', '>'].isPrefixOf t = true <;>
            simp [h1, h2, h3, h4, is_redirect, List.filter_cons]
        · simp [h1, h2, h3, is_redirect, List.filter_cons]

theorem isPrefixOf_gt_head (t : List Char) (h : ['>', '>'].isPrefixOf t = true) :
    t.head? = some '>' := by
  cases t with
  | nil => simp [List.isPrefixOf] at h
  | cons c t =>
    cases t with
    | nil => simp [List.isPrefixOf] at h
    | cons d t =>
      simp [List.isPrefixOf] at h
      simp [← h.1]

theorem fold_redirects (ts : List (List Char)) (ca : command_t × List (Option (List Char))) :
    (ts.foldl token_step ca).1.redirects 0 = (last_stdin ts).elim (ca.1.redirects 0) some
      ∧ (ts.foldl token_step ca).1.redirects 1 = (last_truncate ts).elim (ca.1.redirects 1) some
      ∧ (ts.foldl token_step ca).1.redirects 2 = (last_append ts).elim (ca.1.redirects 2) some := by
  induction ts using List.reverseRecOn with
  | nil => simp [last_stdin, last_truncate, last_append]
  | append_singleton ts t ih =>
    obtain ⟨i0, i1, i2⟩ := ih
    rw [List.foldl_append, List.foldl_cons, List.foldl_nil]
    unfold last_stdin last_truncate last_append at *
    simp only [List.filter_append]
    by_cases h1 : t = ['&']
    · subst h1
      refine ⟨?_, ?_, ?_⟩
      · rw [token_step, if_pos rfl, i0]; simp [List.filter_cons]
      · rw [token_step, if_pos rfl, i1]; simp [List.filter_cons]
      · rw [token_step, if_pos rfl, i2]; simp [List.filter_cons, List.isPrefixOf]
    · by_cases h2 : t.head? = some '<'
      · have hn : ['>', '>'].isPrefixOf t = false := by
          by_contra hc
          have := isPrefixOf_gt_head t (by simpa using hc)
          rw [h2] at this
          exact absurd this (by decide)
        refine ⟨?_, ?_, ?_⟩
        · simp [token_step, h1, h2, List.filter_cons]
        · simp [token_step, h1, h2, List.filter_cons, hn, i1]
        · simp [token_step, h1, h2, List.filter_cons, hn, i2]
      · by_cases h3 : t.head? = some '>'
        · by_cases h4 : ['>', '>'].isPrefixOf t = true
          · refine ⟨?_, ?_, ?_⟩
            · simp [token_step, h1, h2, h3, h4, List.filter_cons, i0]
            · simp [token_step, h1, h2, h3, h4, List.filter_cons, i1]
            · simp [token_step, h1, h2, h3, h4, List.filter_cons]
          · refine ⟨?_, ?_, ?_⟩
            · simp [token_step, h1, h2, h3, h4, List.filter_cons, i0]
            · simp [token_step, h1, h2, h3, h4, List.filter_cons]
            · simp [token_step, h1, h2, h3, h4, List.filter_cons, i2]
        · have hn : ['>', '>'].isPrefixOf t = false := by
            by_contra hc
            exact h3 (isPrefixOf_gt_head t (by simpa using hc))
          refine ⟨?_, ?_, ?_⟩
          · simp [token_step, h1, h2, h3, List.filter_cons, i0]
          · simp [token_step, h1, h2, h3, List.filter_cons, hn, i1]
          · simp [token_step, h1, h2, h3, List.filter_cons, hn, i2]

/-! ## `parse_command` in terms of its loop -/

theorem shift_args_append (xs : List (Option (List Char))) :
    ∀ (y : Option (List Char)) (ys : List (Option (List Char))),
      shift_args xs.length (xs ++ y :: ys)
        = match xs with
          | [] => y :: ys
          | x :: _ => x :: xs ++ ys := by
  induction xs using List.reverseRecOn with
  | nil => intro y ys; rfl
  | append_singleton xs x ih =>
    intro y ys
    have hget : (xs ++ [x] ++ y :: ys).getD xs.length none = x := by
      simpa using getD_append_length xs (y :: ys) x none
    have hset : (xs ++ [x] ++ y :: ys).set (xs.length + 1) x = xs ++ x :: x :: ys := by
      have := set_append_length (xs ++ [x]) ys y x
      simpa using this
    rw [List.length_append, List.length_singleton, shift_args, hget, hset, ih]
    cases xs <;> simp

theorem frame_eq (name : List Char) (args : List (Option (List Char))) :
    ((shift_args (args.length + 2 - 2) (args ++ [none, none])).set 0 (some name)).set
        (args.length + 2 - 1) none
      = some name :: args ++ [none] := by
  have h := shift_args_append args none [none]
  simp only [Nat.add_sub_cancel]
  rw [h]
  cases args with
  | nil => rfl
  | cons x xs =>
    have := set_append_length (some name :: x :: xs) [] (none : Option (List Char)) none
    simpa using this

theorem terminated_padding (line z : List Char) (hz : terminated z) :
    terminated (padding line z) := by
  unfold padding
  cases (line.dropWhile is_splitter).length - (trimmed line).length with
  | zero => simpa using hz
  | succ n => rfl

theorem not_mem_trimmed {line : List Char} {c : Char} (h : c ∉ line) : c ∉ trimmed line :=
  fun hc => h ((List.dropWhile_suffix _).subset
    (( List.rdropWhile_prefix is_splitter _).subset hc))

theorem getD_last_append (s z : List Char) (q : Char) :
    (decide (s.length > 0) && (s ++ z).getD (s.length - 1) NUL == q)
      = (s.getLast? == some q) := by
  induction s using List.reverseRecOn with
  | nil => simp
  | append_singleton s c _ =>
    have := getD_append_length s z c NUL
    simp only [List.length_append, List.length_singleton, Nat.add_sub_cancel,
      List.append_assoc, List.singleton_append, this]
    simp

theorem tokens_aux_concat_blank (s cur : List Char) (c : Char) (h : is_splitter c = true) :
    tokens_aux cur (s ++ [c]) = tokens_aux cur s := by
  induction s generalizing cur with
  | nil => by_cases hc : cur = [] <;> simp [tokens_aux, h, hc]
  | cons d s ih => simp [tokens_aux, ih]

theorem tokens_rdropWhile (s : List Char) : tokens (s.rdropWhile is_splitter) = tokens s := by
  induction s using List.reverseRecOn with
  | nil => rfl
  | append_singleton s c ih =>
    by_cases h : is_splitter c = true
    · rw [List.rdropWhile_concat_pos _ _ _ h, ih, tokens, tokens, tokens_aux_concat_blank _ _ _ h]
    · rw [List.rdropWhile_concat_neg _ _ _ h]

theorem tokens_trimmed (line : List Char) : tokens (trimmed line) = tokens line := by
  rw [trimmed, tokens_rdropWhile, tokens_dropWhile]

theorem trimmed_eq_nil {line : List Char} (h : tokens line = []) : trimmed line = [] := by
  have h1 := tokens_nil ((tokens_trimmed line).trans h)
  have h2 : (trimmed line).rdropWhile is_splitter = trimmed line :=
    List.rdropWhile_idempotent _ _
  rw [← h2, List.rdropWhile_eq_nil_iff]
  exact h1

theorem parse_command_eq (fuel : Nat) (line z : List Char)
    (command : command_t) (st : parser_state) (hl : NUL ∉ line) (hz : terminated z) :
    parse_command (fuel + 1) (line ++ z) command st
      = (parse_loop (parse_command fuel) fuel
          ⟨after_first (trimmed line) ++ padding line z, st.heap⟩
          (entry_command command (trimmed line)) []).map finish := by
  have hmem : (trimmed line
        ++ List.replicate ((line.dropWhile is_splitter).length - (trimmed line).length) NUL
        ++ z) = trimmed line ++ padding line z := by
    simp [padding]
  have hstrtok : strtok is_splitter (trimmed line ++ padding line z)
      = ((tokens (trimmed line)).head?.map
            (fun t => (⟨t, first_end (trimmed line) ++ padding line z⟩ : token)),
         after_first (trimmed line) ++ padding line z) := by
    cases ht : tokens (trimmed line) with
    | nil =>
      have he := trimmed_eq_nil ((tokens_trimmed line).symm.trans ht)
      rw [he]
      simpa [after_first, first_end] using strtok_terminated _ (terminated_padding line z hz)
    | cons t ts =>
      simpa using strtok_cons (padding line z) ht (not_mem_trimmed hl)
        (Or.inr (terminated_padding line z hz))
  unfold parse_command
  simp only [strlen_append line _ hl hz, trim_left_append, trim_right_append]
  rw [show (line.dropWhile is_splitter).rdropWhile is_splitter = trimmed line from rfl, hmem]
  simp only [getD_last_append, hstrtok]
  have hcmd : ∀ o : Option token, o = (tokens (trimmed line)).head?.map
        (fun t => (⟨t, first_end (trimmed line) ++ padding line z⟩ : token)) →
      ({ (if (trimmed line).getLast? == some '&' then
            { (if (trimmed line).getLast? == some '?' then
                { command with auto_complete := true } else command) with background := true }
          else (if (trimmed line).getLast? == some '?' then
                { command with auto_complete := true } else command)) with
          name := match o with | none => [] | some tk => tk.pch } : command_t)
        = entry_command command (trimmed line) := by
    intro o ho
    subst ho
    unfold entry_command
    cases tokens (trimmed line) <;> simp
  rw [hcmd _ rfl]
  cases parse_loop (parse_command fuel) fuel
      ⟨after_first (trimmed line) ++ padding line z, st.heap⟩
      (entry_command command (trimmed line)) [] with
  | none => rfl
  | some r =>
    obtain ⟨c, a, st'⟩ := r
    simp only [Option.map_some', finish, reframe, frame_eq]

theorem tokens_length_le (s : List Char) : (tokens s).length ≤ s.length := by
  induction s using tokens_induction with
  | nil s h => simp [h]
  | cons s t ts h ih =>
    obtain ⟨_, _, hts⟩ := tokens_cons h
    have := after_first_length h
    rw [h, List.length_cons, hts]
    omega

theorem tokens_after_first (s : List Char) : tokens (after_first s) = (tokens s).tail := by
  cases h : tokens s with
  | nil =>
    have hall := tokens_nil h
    have : after_first s = [] := by
      simp [after_first, first_end, List.dropWhile_eq_nil_iff.mpr hall]
    rw [this]
    rfl
  | cons t ts => exact (tokens_cons h).2.2.symm

theorem trimmed_length_le (line : List Char) : (trimmed line).length ≤ line.length :=
  (( List.rdropWhile_prefix is_splitter _).length_le).trans
    (List.dropWhile_suffix is_splitter).length_le

theorem parse_command_no_pipe (fuel : Nat) (line z : List Char)
    (command : command_t) (st : parser_state) (hl : NUL ∉ line) (hz : terminated z)
    (hp : ∀ t ∈ (tokens line).tail, t ≠ ['|']) (hf : line.length + 2 ≤ fuel) :
    parse_command fuel (line ++ z) command st
      = some (single_stage command line, ⟨padding line z, st.heap⟩) := by
  obtain ⟨f, rfl⟩ : ∃ f, fuel = f + 1 := ⟨fuel - 1, by omega⟩
  have htk : tokens (after_first (trimmed line)) = (tokens line).tail := by
    rw [tokens_after_first, tokens_trimmed]
  have hk : (tokens (after_first (trimmed line))).length + 1 ≤ f := by
    have h1 := tokens_length_le (after_first (trimmed line))
    have h2 := (after_first_suffix (trimmed line)).length_le
    have h3 := trimmed_length_le line
    omega
  obtain ⟨g, hg⟩ : ∃ g, f = (g + 1) + (tokens (after_first (trimmed line))).length :=
    ⟨f - (tokens (after_first (trimmed line))).length - 1, by omega⟩
  rw [parse_command_eq f line z command st hl hz]
  conv_lhs => rw [hg]
  rw [loop_tokens _ (padding line z) (after_first (trimmed line))
      (after_first_not_mem (not_mem_trimmed hl)) (Or.inr (terminated_padding line z hz))
      (by rw [htk]; exact hp),
    loop_end _ g _ _ _ _ (terminated_padding line z hz), htk]
  rfl

theorem parse_no_pipe (junk : Nat → command_t) (line rest : List Char) (command : command_t)
    (hl : NUL ∉ line) (hp : ∀ t ∈ (tokens line).tail, t ≠ ['|']) :
    parse junk (line ++ NUL :: rest) command = some (single_stage command line) := by
  unfold parse
  rw [parse_command_no_pipe _ line (NUL :: rest) command _ hl rfl hp (by simp)]
  rfl

/-! ## A `|` token -/

theorem strtok_none_terminated (x sv : List Char) (h : strtok is_splitter x = (none, sv)) :
    terminated sv := by
  unfold strtok at h
  cases hd : x.dropWhile is_splitter with
  | nil =>
    rw [hd] at h
    simp only [Prod.mk.injEq, true_and] at h
    rw [← h]
    rfl
  | cons c r =>
    rw [hd] at h
    by_cases hc : (c == NUL) = true
    · simp only [hc, if_true, Prod.mk.injEq, true_and] at h
      rw [← h]
      simpa using hc
    · simp [hc] at h

theorem parse_loop_terminated
    (recurse : List Char → command_t → parser_state → Option (command_t × parser_state)) :
    ∀ (fuel : Nat) (st : parser_state) (command : command_t) (args : List (Option (List Char)))
      (r : command_t × List (Option (List Char)) × parser_state),
      parse_loop recurse fuel st command args = some r → terminated r.2.2.save := by
  intro fuel
  induction fuel with
  | zero => intro st command args r h; simp [parse_loop] at h
  | succ fuel ih =>
    intro st command args r h
    unfold parse_loop at h
    cases hst : strtok is_splitter st.save with
    | mk o sv =>
      rw [hst] at h
      cases o with
      | none =>
        simp only [Option.some.injEq] at h
        rw [← h]
        exact strtok_none_terminated _ _ hst
      | some tk =>
        simp only at h
        cases hb : loop_body recurse tk { st with save := sv } command args with
        | none => rw [hb] at h; simp at h
        | some v =>
          rw [hb] at h
          exact ih _ _ _ _ h

theorem parse_command_terminated (fuel : Nat) (buf : List Char)
    (command : command_t) (st : parser_state) (r : command_t × parser_state)
    (h : parse_command fuel buf command st = some r) : terminated r.2.save := by
  cases fuel with
  | zero => simp [parse_command] at h
  | succ fuel =>
    unfold parse_command at h
    simp only at h
    split at h
    · simp at h
    · rename_i c a st' hl
      simp only [Option.some.injEq] at h
      rw [← h]
      exact parse_loop_terminated _ _ _ _ _ _ hl

theorem parse_command_save_irrel (fuel : Nat) (buf : List Char)
    (command : command_t) (sv sv' : List Char) (a : Nat → command_t) :
    parse_command fuel buf command ⟨sv, a⟩ = parse_command fuel buf command ⟨sv', a⟩ := by
  cases fuel <;> rfl

theorem loop_body_pipe
    (recurse : List Char → command_t → parser_state → Option (command_t × parser_state))
    (e : List Char) (st : parser_state) (command : command_t)
    (args : List (Option (List Char))) :
    loop_body recurse ⟨['|'], e⟩ st command args
      = (recurse (e.tail.dropWhile is_splitter) (st.heap 0)
          { st with heap := fun k => st.heap (k + 1) }).map
          (fun r => (r.2, { command with next := some r.1 }, args)) := by
  have h1 : trim_left ['|'] 1 = (['|'], 1) := by decide
  have h2 : trim_right ['|'] 1 = (['|'], 1) := by decide
  have h3 : (fun c : Char => c == ' ' || c == '\t') = is_splitter := rfl
  unfold loop_body
  simp only [List.length_singleton, one_ne_zero, if_false, h1, h2, List.take_succ_cons,
    List.take_zero, if_true, List.singleton_append, List.drop_succ_cons, List.drop_zero, h3]
  have h4 : (' ' :: e.tail).dropWhile is_splitter = e.tail.dropWhile is_splitter := by
    simp [List.dropWhile_cons, is_splitter]
  rw [h4]
  cases recurse (e.tail.dropWhile is_splitter) (st.heap 0)
    { st with heap := fun k => st.heap (k + 1) } with
  | none => rfl
  | some r => rfl

theorem tokens_pipe_cons (y : List Char) (hy : ∀ c, y.head? = some c → is_splitter c = true) :
    tokens ('|' :: y) = ['|'] :: tokens y := by
  have := tokens_aux_stop ['|'] y [] (by decide) hy
  simpa [tokens] using this

theorem first_end_pipe (y : List Char) (hy : ∀ c, y.head? = some c → is_splitter c = true) :
    first_end ('|' :: y) = y := by
  have h0 : is_splitter '|' = false := by decide
  cases y with
  | nil => simp [first_end, List.dropWhile_cons, h0]
  | cons w r =>
    have := hy w rfl
    simp [first_end, List.dropWhile_cons, h0, this]

/-- The memory `parse_command` is called on for the stage after a `|` token
that is followed by the memory `e`. -/
theorem loop_pipe
    (recurse : List Char → command_t → parser_state → Option (command_t × parser_state))
    (fuel : Nat) (y z : List Char) (a : Nat → command_t) (command : command_t)
    (args : List (Option (List Char)))
    (hy : ∀ c, y.head? = some c → is_splitter c = true) (hyn : NUL ∉ y) (hz : terminated z) :
    parse_loop recurse (fuel + 1) ⟨'|' :: (y ++ z), a⟩ command args
      = match recurse ((y ++ z).tail.dropWhile is_splitter) (a 0) ⟨y.tail ++ z, fun k => a (k + 1)⟩ with
        | none => none
        | some r => parse_loop recurse fuel r.2 { command with next := some r.1 } args := by
  have hs : NUL ∉ '|' :: y := by
    intro h
    rcases List.mem_cons.mp h with h | h
    · exact absurd h (by decide)
    · exact hyn h
  have hst := strtok_cons z (tokens_pipe_cons y hy) hs (Or.inr hz)
  rw [first_end_pipe y hy, after_first, first_end_pipe y hy] at hst
  rw [parse_loop]
  simp only [List.cons_append] at hst
  simp only [hst, loop_body_pipe]
  cases recurse ((y ++ z).tail.dropWhile is_splitter) (a 0) ⟨y.tail ++ z, fun k => a (k + 1)⟩ with
  | none => rfl
  | some r => rfl

theorem tokens_aux_append_blank (a b cur : List Char) (w : Char) (hw : is_splitter w = true) :
    tokens_aux cur (a ++ w :: b) = tokens_aux cur a ++ tokens b := by
  induction a generalizing cur with
  | nil => by_cases hc : cur = [] <;> simp [tokens_aux, tokens, hw, hc]
  | cons c a ih =>
    by_cases h : is_splitter c = true
    · by_cases hc : cur = [] <;> simp [tokens_aux, h, hc, ih]
    · simp [tokens_aux, h, ih]

theorem tokens_append_blank (a b : List Char) (w : Char) (hw : is_splitter w = true) :
    tokens (a ++ w :: b) = tokens a ++ tokens b :=
  tokens_aux_append_blank a b [] w hw

theorem tokens_append_of_ends_blank (p q : List Char) (hp : ends_blank p) :
    tokens (p ++ q) = tokens p ++ tokens q := by
  induction p using List.reverseRecOn with
  | nil => rfl
  | append_singleton p w _ =>
    have hw : is_splitter w = true := hp w (by simp)
    have h1 : tokens (p ++ [w]) = tokens p := tokens_aux_concat_blank p [] w hw
    rw [List.append_assoc, List.singleton_append, tokens_append_blank p q w hw, h1]

theorem ends_blank_of_all {p : List Char} (h : ∀ c ∈ p, is_splitter c = true) : ends_blank p :=
  fun c hc => h c (List.mem_of_getLast?_eq_some hc)

theorem ends_blank_append {p q : List Char} (hp : ends_blank p) (hq : ends_blank q) :
    ends_blank (p ++ q) := by
  intro c hc
  by_cases hn : q = []
  · subst hn
    rw [List.append_nil] at hc
    exact hp c hc
  · rw [List.getLast?_append_of_ne_nil _ hn] at hc
    exact hq c hc

theorem tokens_eq_nil_of_all {p : List Char} (h : ∀ c ∈ p, is_splitter c = true) :
    tokens p = [] := by
  rw [tokens_unfold, if_pos (List.dropWhile_eq_nil_iff.mpr h)]

/-- A line one of whose tokens is `|` splits at the first of them. -/
theorem pipe_split (s : List Char) :
    ['|'] ∈ tokens s →
      ∃ p y, s = p ++ '|' :: y ∧ ends_blank p
        ∧ (∀ c, y.head? = some c → is_splitter c = true)
        ∧ (∀ t ∈ tokens p, t ≠ ['|']) := by
  induction s using tokens_induction with
  | nil s h => intro hm; simp [h] at hm
  | cons s t ts h ih =>
    intro hm
    obtain ⟨_, ht, hts⟩ := tokens_cons h
    have hs : s = s.takeWhile is_splitter ++ (t ++ first_end s) := by
      rw [ht, ← first_split, List.takeWhile_append_dropWhile]
    have hws : ∀ c ∈ s.takeWhile is_splitter, is_splitter c = true :=
      fun c hc => List.mem_takeWhile_imp hc
    by_cases hp : t = ['|']
    · refine ⟨s.takeWhile is_splitter, first_end s, ?_, ends_blank_of_all hws,
        first_end_head s, ?_⟩
      · conv_lhs => rw [hs, hp]
        rfl
      · simp [tokens_eq_nil_of_all hws]
    · have hm' : ['|'] ∈ tokens (after_first s) := by
        rw [h, List.mem_cons] at hm
        rcases hm with hm | hm
        · exact absurd hm.symm hp
        · rw [← hts]; exact hm
      obtain ⟨p', y', hsp, hpb, hy, hnp⟩ := ih hm'
      cases hfe : first_end s with
      | nil =>
        rw [after_first, hfe] at hsp
        simp at hsp
      | cons w r =>
        have hw : is_splitter w = true := first_end_head s w (by simp [hfe])
        have hr : r = p' ++ '|' :: y' := by
          rw [after_first, hfe] at hsp
          simpa using hsp
        have hX : ends_blank (s.takeWhile is_splitter ++ t ++ [w]) := by
          intro c hc
          simp at hc
          exact hc ▸ hw
        have hsX : s = (s.takeWhile is_splitter ++ t ++ [w]) ++ after_first s := by
          conv_lhs => rw [hs, hfe]
          simp [after_first, hfe]
        have htX : tokens (s.takeWhile is_splitter ++ t ++ [w]) = [t] := by
          have h1 : tokens s = tokens (s.takeWhile is_splitter ++ t ++ [w])
              ++ tokens (after_first s) := by
            conv_lhs => rw [hsX]
            exact tokens_append_of_ends_blank _ _ hX
          rw [h, ← hts] at h1
          have h2 : [t] ++ ts = tokens (s.takeWhile is_splitter ++ t ++ [w]) ++ ts := h1
          exact (List.append_cancel_right h2).symm
        refine ⟨(s.takeWhile is_splitter ++ t ++ [w]) ++ p', y', ?_,
          ends_blank_append hX hpb, hy, ?_⟩
        · conv_lhs => rw [hsX, hsp]
          simp
        · intro u hu
          rw [tokens_append_of_ends_blank _ _ hX, htX] at hu
          simp only [List.singleton_append, List.mem_cons] at hu
          rcases hu with rfl | hu
          · exact hp
          · exact hnp u hu

theorem tokens_of_split {p y : List Char} (hpb : ends_blank p)
    (hy : ∀ c, y.head? = some c → is_splitter c = true) :
    tokens (p ++ '|' :: y) = tokens p ++ ['|'] :: tokens y := by
  rw [tokens_append_of_ends_blank _ _ hpb, tokens_pipe_cons y hy]

theorem takeWhile_of_split {p y : List Char} (hpb : ends_blank p)
    (hy : ∀ c, y.head? = some c → is_splitter c = true) (hp : ∀ t ∈ tokens p, t ≠ ['|']) :
    (tokens (p ++ '|' :: y)).takeWhile (fun t => t != ['|']) = tokens p := by
  rw [tokens_of_split hpb hy]
  have := takeWhile_dropWhile_stop (fun t : List Char => t != ['|']) (tokens p)
    (['|'] :: tokens y) (fun t ht => by simpa using hp t ht) (by simp)
  exact this.1

/-! ## `parse_command` on a line with a `|` token, and on any memory -/

theorem stage_tokens_of_split {line p y : List Char}
    (hsplit : after_first (trimmed line) = p ++ '|' :: y) (hpb : ends_blank p)
    (hy : ∀ c, y.head? = some c → is_splitter c = true) (hp : ∀ t ∈ tokens p, t ≠ ['|']) :
    stage_tokens line = tokens p := by
  rw [stage_tokens, ← tokens_trimmed line, ← tokens_after_first, hsplit,
    takeWhile_of_split hpb hy hp]

theorem split_lengths {line p y : List Char}
    (hsplit : after_first (trimmed line) = p ++ '|' :: y) :
    p.length + y.length + 2 ≤ (trimmed line).length := by
  have hne : tokens (trimmed line) ≠ [] := by
    intro h
    have := tokens_after_first (trimmed line)
    rw [h, hsplit] at this
    have h2 := tokens_nil this '|' (by simp)
    exact absurd h2 (by decide)
  cases ht : tokens (trimmed line) with
  | nil => exact absurd ht hne
  | cons t ts =>
    have := after_first_length ht
    rw [hsplit] at this
    simp at this
    omega

theorem parse_command_pipe (f : Nat) (line z : List Char)
    (command : command_t) (st : parser_state) (p y : List Char)
    (hl : NUL ∉ line) (hz : terminated z)
    (hsplit : after_first (trimmed line) = p ++ '|' :: y) (hpb : ends_blank p)
    (hy : ∀ c, y.head? = some c → is_splitter c = true) (hp : ∀ t ∈ tokens p, t ≠ ['|'])
    (hf : line.length ≤ f) (r : command_t × parser_state)
    (hrec : parse_command f ((y ++ padding line z).tail.dropWhile is_splitter)
      (st.heap 0) ⟨[], fun k => st.heap (k + 1)⟩ = some r) :
    parse_command (f + 1) (line ++ z) command st
      = some (first_stage command line (some r.1), r.2) := by
  have hnaf : NUL ∉ after_first (trimmed line) := after_first_not_mem (not_mem_trimmed hl)
  have hnp : NUL ∉ p := fun h => hnaf (by rw [hsplit]; simp [h])
  have hny : NUL ∉ y := fun h => hnaf (by rw [hsplit]; simp [h])
  have hlen := split_lengths hsplit
  have hk : (tokens p).length + 2 ≤ f := by
    have h1 := tokens_length_le p
    have h2 := trimmed_length_le line
    omega
  obtain ⟨g, hg⟩ : ∃ g, f = (g + 1 + 1) + (tokens p).length :=
    ⟨f - (tokens p).length - 2, by omega⟩
  have hpad := terminated_padding line z hz
  rw [parse_command_eq f line z command st hl hz, hsplit]
  have hmem : p ++ '|' :: y ++ padding line z = p ++ '|' :: (y ++ padding line z) := by simp
  rw [hmem]
  conv_lhs => rw [hg]
  rw [loop_tokens _ ('|' :: (y ++ padding line z)) p hnp (Or.inl hpb) hp,
    loop_pipe _ (g + 1) y (padding line z) _ _ _ hy hny hpad, ← hg,
    parse_command_save_irrel f _ _ (y.tail ++ padding line z) [], hrec]
  have hterm := parse_command_terminated f _ _ _ r hrec
  obtain ⟨c', sv, a'⟩ := r
  simp only
  rw [loop_end _ g sv a' _ _ hterm, Option.map_some', first_stage,
    stage_tokens_of_split hsplit hpb hy hp]
  rfl

theorem cstr_not_mem (m : List Char) : NUL ∉ cstr m := by
  intro h
  have := List.mem_takeWhile_imp h
  simp at this

theorem cstr_split (m : List Char) : m = cstr m ++ m.dropWhile (fun c => c != NUL) :=
  (List.takeWhile_append_dropWhile _ m).symm

theorem terminated_dropWhile (m : List Char) : terminated (m.dropWhile (fun c => c != NUL)) := by
  cases h : m.dropWhile (fun c => c != NUL) with
  | nil => rfl
  | cons d r =>
    have := dropWhile_head_false (fun c => c != NUL) m d (by simp [h])
    simpa [terminated] using this

theorem cstr_append (line z : List Char) (hl : NUL ∉ line) (hz : terminated z) :
    cstr (line ++ z) = line := by
  have := takeWhile_dropWhile_stop (fun c => c != NUL) line z
    (fun c hc => by
      have : c ≠ NUL := fun e => hl (e ▸ hc)
      simpa using this)
    (fun c hc => by
      cases z with
      | nil => simp at hc
      | cons d r =>
        have hd : d = NUL := hz
        simp only [List.head?_cons, Option.some.injEq] at hc
        subst hc
        simp [hd])
  exact this.1

theorem padding_length (line z : List Char) :
    (padding line z).length + (trimmed line).length
      = (line.dropWhile is_splitter).length + z.length := by
  have h1 : (trimmed line).length ≤ (line.dropWhile is_splitter).length :=
    ( List.rdropWhile_prefix is_splitter _).length_le
  simp [padding]
  omega

theorem single_eq_first (command : command_t) (line : List Char)
    (hp : ∀ t ∈ (tokens line).tail, t ≠ ['|']) :
    single_stage command line = first_stage command line command.next := by
  have hst : stage_tokens line = (tokens line).tail := by
    rw [stage_tokens, List.takeWhile_eq_self_iff]
    intro t ht
    simpa using hp t ht
  have hnext := (fold_fields (tokens line).tail (entry_command command (trimmed line), [])).2.2.2
  have hentry : (entry_command command (trimmed line)).next = command.next := by
    unfold entry_command
    split_ifs <;> rfl
  unfold single_stage first_stage
  rw [hst]
  simp only at hnext
  rw [← hentry, ← hnext]
  rfl

/-- On any memory `parse_command` returns, given fuel for the length of the
memory, and its result is the first stage of the string stored there. -/
theorem parse_command_total :
    ∀ (f : Nat) (m : List Char) (command : command_t) (st : parser_state),
      m.length + 2 ≤ f →
      ∃ r st', parse_command f m command st = some (r, st')
        ∧ st'.save.length ≤ m.length
        ∧ ∃ nx, r = first_stage command (cstr m) nx
            ∧ ((nx = command.next ∧ ['|'] ∉ (tokens (cstr m)).tail)
                ∨ (nx.isSome = true ∧ ['|'] ∈ (tokens (cstr m)).tail)) := by
  intro f
  induction f with
  | zero => intro m command st h; omega
  | succ f ih =>
    intro m command st hf
    have hl := cstr_not_mem m
    have hz := terminated_dropWhile m
    have hm := cstr_split m
    have hmlen : m.length = (cstr m).length + (m.dropWhile (fun c => c != NUL)).length := by
      conv_lhs => rw [hm]
      simp
    have hpl := padding_length (cstr m) (m.dropWhile (fun c => c != NUL))
    have hdl : ((cstr m).dropWhile is_splitter).length ≤ (cstr m).length :=
      (List.dropWhile_suffix is_splitter).length_le
    by_cases hpipe : ['|'] ∈ (tokens (cstr m)).tail
    · have hpipe' : ['|'] ∈ tokens (after_first (trimmed (cstr m))) := by
        rw [tokens_after_first, tokens_trimmed]; exact hpipe
      obtain ⟨p, y, hsplit, hpb, hy, hp⟩ := pipe_split _ hpipe'
      have hlen := split_lengths hsplit
      have hMlen : ((y ++ padding (cstr m) (m.dropWhile (fun c => c != NUL))).tail.dropWhile
          is_splitter).length + 2 ≤ f := by
        have h1 := (List.dropWhile_suffix is_splitter
          (l := (y ++ padding (cstr m) (m.dropWhile (fun c => c != NUL))).tail)).length_le
        simp only [List.length_tail, List.length_append] at h1
        omega
      obtain ⟨r', st'', hrec, hsv, _⟩ := ih _ (st.heap 0) ⟨[], fun k => st.heap (k + 1)⟩ hMlen
      have key := parse_command_pipe f (cstr m) _ command st p y hl hz hsplit hpb hy hp
        (by omega) (r', st'') hrec
      rw [← hm] at key
      refine ⟨_, _, key, ?_, some r', rfl, Or.inr ⟨rfl, hpipe⟩⟩
      have h1 := (List.dropWhile_suffix is_splitter
        (l := (y ++ padding (cstr m) (m.dropWhile (fun c => c != NUL))).tail)).length_le
      simp only [List.length_tail, List.length_append] at h1
      simp only at hsv ⊢
      omega
    · have hp : ∀ t ∈ (tokens (cstr m)).tail, t ≠ ['|'] := fun t ht e => hpipe (e ▸ ht)
      have key := parse_command_no_pipe (f + 1) (cstr m) _ command st hl hz hp (by omega)
      rw [← hm] at key
      refine ⟨_, _, key, ?_, command.next, single_eq_first command _ hp, Or.inl ⟨rfl, hpipe⟩⟩
      have h3 := trimmed_length_le (cstr m)
      simp only
      omega

/-! ## More fuel does not change a result -/

theorem loop_body_mono
    (rec1 rec2 : List Char → command_t → parser_state → Option (command_t × parser_state))
    (hrec : ∀ x c s r, rec1 x c s = some r → rec2 x c s = some r)
    (tk : token) (st : parser_state) (command : command_t) (args : List (Option (List Char)))
    (v : parser_state × command_t × List (Option (List Char)))
    (h : loop_body rec1 tk st command args = some v) :
    loop_body rec2 tk st command args = some v := by
  unfold loop_body at h ⊢
  simp only at h ⊢
  split_ifs at h ⊢ <;> try exact h
  cases h1 : rec1 (List.dropWhile (fun c => c == ' ' || c == '\t')
      (List.drop 1 (tk.pch ++ ' ' :: tk.tail.tail))) (st.heap 0)
      { save := st.save, heap := fun k => st.heap (k + 1) } with
  | none => rw [h1] at h; simp at h
  | some r =>
    rw [h1] at h
    rw [hrec _ _ _ _ h1]
    exact h

theorem parse_loop_mono
    (rec1 rec2 : List Char → command_t → parser_state → Option (command_t × parser_state))
    (hrec : ∀ x c s r, rec1 x c s = some r → rec2 x c s = some r) :
    ∀ (n : Nat) (st : parser_state) (command : command_t) (args : List (Option (List Char)))
      (r : command_t × List (Option (List Char)) × parser_state),
      parse_loop rec1 n st command args = some r →
      parse_loop rec2 (n + 1) st command args = some r := by
  intro n
  induction n with
  | zero => intro st command args r h; simp [parse_loop] at h
  | succ n ih =>
    intro st command args r h
    rw [parse_loop] at h ⊢
    cases hst : strtok is_splitter st.save with
    | mk o sv =>
      rw [hst] at h
      cases o with
      | none => exact h
      | some tk =>
        simp only at h ⊢
        cases hb : loop_body rec1 tk { st with save := sv } command args with
        | none => rw [hb] at h; simp at h
        | some v =>
          rw [hb] at h
          rw [loop_body_mono rec1 rec2 hrec _ _ _ _ _ hb]
          exact ih _ _ _ _ h

theorem parse_command_mono :
    ∀ (f : Nat) (m : List Char) (command : command_t) (st : parser_state)
      (r : command_t × parser_state),
      parse_command f m command st = some r →
      parse_command (f + 1) m command st = some r := by
  intro f
  induction f with
  | zero => intro m command st r h; simp [parse_command] at h
  | succ f ih =>
    intro m command st r h
    rw [parse_command] at h ⊢
    simp only at h ⊢
    split at h
    · simp at h
    · rename_i c a st' hl
      rw [parse_loop_mono _ _ ih _ _ _ _ _ hl]
      exact h

theorem parse_command_fuel (f g : Nat) (m : List Char)
    (command : command_t) (st : parser_state) (r : command_t × parser_state)
    (h : parse_command f m command st = some r) (hfg : f ≤ g) :
    parse_command g m command st = some r := by
  induction g with
  | zero =>
    have : f = 0 := by omega
    subst this
    exact h
  | succ g ih =>
    by_cases hf : f = g + 1
    · subst hf; exact h
    · exact parse_command_mono g m command st r (ih (by omega))

/-! ## Trimming a line written as blanks, text, blanks -/

theorem rdropWhile_append_all (X r : List Char) (hr : all_blank r) :
    (X ++ r).rdropWhile is_splitter = X.rdropWhile is_splitter := by
  induction r using List.reverseRecOn with
  | nil => simp
  | append_singleton r c ih =>
    rw [← List.append_assoc, List.rdropWhile_concat_pos _ _ _ (hr c (by simp))]
    exact ih (fun x hx => hr x (by simp [hx]))

theorem rdropWhile_append_core (X core : List Char) (hc : is_core core) :
    (X ++ core).rdropWhile is_splitter = X ++ core := by
  rw [List.rdropWhile_eq_self_iff]
  intro hl
  have h1 : (X ++ core).getLast? = core.getLast? := List.getLast?_append_of_ne_nil _ hc.1
  have h2 := hc.2.2 ((X ++ core).getLast hl) (by rw [← h1, List.getLast?_eq_getLast _ hl])
  simp [h2]

theorem dropWhile_core_append (core Y : List Char) (hc : is_core core) :
    (core ++ Y).dropWhile is_splitter = core ++ Y := by
  cases core with
  | nil => exact absurd rfl hc.1
  | cons c core =>
    have := hc.2.1 c rfl
    simp [List.dropWhile_cons, this]

theorem trimmed_of_core (l core r : List Char) (hl : all_blank l) (hr : all_blank r)
    (hc : is_core core) : trimmed (l ++ core ++ r) = core := by
  unfold trimmed
  rw [List.append_assoc, List.dropWhile_append_of_pos hl, dropWhile_core_append core r hc,
    rdropWhile_append_all core r hr]
  simpa using rdropWhile_append_core [] core hc

theorem padding_of_core (l core r z : List Char) (hl : all_blank l) (hr : all_blank r)
    (hc : is_core core) : padding (l ++ core ++ r) z = List.replicate r.length NUL ++ z := by
  unfold padding
  rw [trimmed_of_core l core r hl hr hc, List.append_assoc, List.dropWhile_append_of_pos hl,
    dropWhile_core_append core r hc]
  simp

theorem rdropWhile_split (X : List Char) :
    ∃ r, X = X.rdropWhile is_splitter ++ r ∧ all_blank r := by
  induction X using List.reverseRecOn with
  | nil => exact ⟨[], rfl, fun c hc => by simp at hc⟩
  | append_singleton X c ih =>
    obtain ⟨r, hX, hr⟩ := ih
    by_cases h : is_splitter c = true
    · refine ⟨r ++ [c], ?_, ?_⟩
      · rw [List.rdropWhile_concat_pos _ _ _ h, ← List.append_assoc, ← hX]
      · intro x hx
        rcases List.mem_append.mp hx with hx | hx
        · exact hr x hx
        · simp at hx; exact hx ▸ h
    · exact ⟨[], by rw [List.rdropWhile_concat_neg _ _ _ h]; simp,
        fun c hc => by simp at hc⟩

theorem trim_decomp (B : List Char) (h : tokens B ≠ []) :
    ∃ l core r, B = l ++ core ++ r ∧ all_blank l ∧ all_blank r ∧ is_core core := by
  obtain ⟨r, hr, hrb⟩ := rdropWhile_split (B.dropWhile is_splitter)
  have hne : trimmed B ≠ [] := by
    intro he
    apply h
    rw [← tokens_trimmed, he]
    rfl
  refine ⟨B.takeWhile is_splitter, trimmed B, r, ?_, fun c hc => List.mem_takeWhile_imp hc, hrb,
    hne, ?_, ?_⟩
  · rw [List.append_assoc]
    conv_lhs => rw [← List.takeWhile_append_dropWhile is_splitter B, hr]
    rfl
  · intro c hc
    have hpre : trimmed B <+: B.dropWhile is_splitter := List.rdropWhile_prefix _ _
    apply dropWhile_head_false is_splitter B c
    obtain ⟨t, ht⟩ := hpre
    rw [← ht]
    cases htb : trimmed B with
    | nil => exact absurd htb hne
    | cons d ds =>
      rw [htb] at hc
      simpa using hc
  · intro c hc
    have := List.rdropWhile_last_not is_splitter (B.dropWhile is_splitter) hne
    have hl : (trimmed B).getLast? = some ((trimmed B).getLast hne) :=
      List.getLast?_eq_getLast _ hne
    rw [hl] at hc
    simp only [Option.some.injEq] at hc
    rw [← hc]
    simpa [trimmed] using this

theorem tokens_of_core (l core r : List Char) (hl : all_blank l) (hr : all_blank r)
    (hc : is_core core) : tokens (l ++ core ++ r) = tokens core := by
  rw [← tokens_trimmed, trimmed_of_core l core r hl hr hc]

theorem tokens_core_ne_nil (core : List Char) (hc : is_core core) : tokens core ≠ [] := by
  intro h
  cases hcore : core with
  | nil => exact hc.1 hcore
  | cons c cs =>
    have h1 := tokens_nil h c (by simp [hcore])
    have h2 := hc.2.1 c (by simp [hcore])
    rw [h1] at h2
    exact absurd h2 (by decide)

theorem tokens_append_all_blank (X W : List Char) (hW : all_blank W) :
    tokens (X ++ W) = tokens X := by
  rw [← tokens_rdropWhile (X ++ W), rdropWhile_append_all X W hW, tokens_rdropWhile]

theorem tokens_all_blank_append (W X : List Char) (hW : all_blank W) :
    tokens (W ++ X) = tokens X := by
  rw [← tokens_dropWhile (W ++ X), List.dropWhile_append_of_pos hW, tokens_dropWhile]

theorem ends_blank_after_first {s : List Char} (h : ends_blank s) : ends_blank (after_first s) := by
  rcases boundary_after_first (y := ['x']) (Or.inl h) with h' | h'
  · exact h'
  · have : ('x' : Char) = NUL := h'
    exact absurd this (by decide)

theorem after_first_append (s q : List Char) (hb : ends_blank s) (ht : tokens s ≠ []) :
    after_first (s ++ q) = after_first s ++ q := by
  have hne : s.dropWhile is_splitter ≠ [] := by
    intro he
    apply ht
    rw [tokens_unfold, if_pos he]
  have hfe := ends_blank_first_end hb hne
  have h1 : (s ++ q).dropWhile is_splitter = s.dropWhile is_splitter ++ q := by
    rw [List.dropWhile_append]
    simp [hne]
  have h2 : first_end (s ++ q) = first_end s ++ q := by
    unfold first_end at hfe ⊢
    rw [h1, List.dropWhile_append]
    simp [hfe]
  unfold after_first
  rw [h2]
  cases hf : first_end s with
  | nil => exact absurd hf hfe
  | cons w r => rfl

/-! ## A line of the form `A | B` -/

theorem entry_command_redirects (command : command_t) (s : List Char) :
    (entry_command command s).redirects = command.redirects := by
  unfold entry_command
  split_ifs <;> rfl

theorem entry_command_name (command : command_t) (s : List Char) :
    (entry_command command s).name = (tokens s).headD [] := rfl

theorem stage_fields_eq (command : command_t) (L A : List Char) (nx : Option command_t)
    (h1 : stage_tokens L = (tokens A).tail) (h2 : (tokens L).headD [] = (tokens A).headD []) :
    (first_stage command L nx).name = (single_stage command A).name
      ∧ (first_stage command L nx).args = (single_stage command A).args
      ∧ (first_stage command L nx).arg_count = (single_stage command A).arg_count
      ∧ (first_stage command L nx).redirects = (single_stage command A).redirects := by
  have hname : (entry_command command (trimmed L)).name
      = (entry_command command (trimmed A)).name := by
    rw [entry_command_name, entry_command_name, tokens_trimmed, tokens_trimmed, h2]
  have fL := fold_fields (tokens A).tail (entry_command command (trimmed L), [])
  have fA := fold_fields (tokens A).tail (entry_command command (trimmed A), [])
  have aL := fold_args (tokens A).tail (entry_command command (trimmed L), [])
  have aA := fold_args (tokens A).tail (entry_command command (trimmed A), [])
  have rL := fold_redirects (tokens A).tail (entry_command command (trimmed L), [])
  have rA := fold_redirects (tokens A).tail (entry_command command (trimmed A), [])
  simp only [entry_command_redirects] at rL rA
  unfold first_stage single_stage reframe
  rw [h1]
  simp only
  refine ⟨?_, ?_, ?_, ?_⟩
  · rw [fL.1, fA.1]; exact hname
  · rw [fL.1, fA.1, aL, aA, hname]
  · rw [aL, aA]
  · funext i
    fin_cases i
    · exact rL.1.trans rA.1.symm
    · exact rL.2.1.trans rA.2.1.symm
    · exact rL.2.2.trans rA.2.2.symm

theorem pipe_form_core (lA cA rA ws1 y R rest : List Char) (command : command_t)
    (st : parser_state) (f : Nat)
    (hlA : all_blank lA) (hcA : is_core cA) (hrA : all_blank rA)
    (hw1 : ws1 ≠ []) (hw1b : all_blank ws1)
    (hy : ∀ c, y.head? = some c → is_splitter c = true)
    (hyl : ∀ c, y.getLast? = some c → is_splitter c = false) (hR : all_blank R)
    (hnul : NUL ∉ lA ++ (cA ++ rA ++ ws1 ++ '|' :: y) ++ R)
    (hnp : ∀ t ∈ (tokens cA).tail, t ≠ ['|'])
    (hf : (lA ++ (cA ++ rA ++ ws1 ++ '|' :: y) ++ R).length ≤ f)
    (r : command_t × parser_state)
    (hrec : parse_command f
      ((y ++ (List.replicate R.length NUL ++ NUL :: rest)).tail.dropWhile is_splitter)
      (st.heap 0) ⟨[], fun k => st.heap (k + 1)⟩ = some r) :
    parse_command (f + 1) ((lA ++ (cA ++ rA ++ ws1 ++ '|' :: y) ++ R) ++ NUL :: rest) command st
        = some (first_stage command (lA ++ (cA ++ rA ++ ws1 ++ '|' :: y) ++ R) (some r.1), r.2)
      ∧ stage_tokens (lA ++ (cA ++ rA ++ ws1 ++ '|' :: y) ++ R) = (tokens cA).tail
      ∧ (tokens (lA ++ (cA ++ rA ++ ws1 ++ '|' :: y) ++ R)).headD [] = (tokens cA).headD [] := by
  have hSb : ends_blank (cA ++ rA ++ ws1) := by
    intro c hc
    rw [List.getLast?_append_of_ne_nil _ hw1] at hc
    exact hw1b c (List.mem_of_getLast?_eq_some hc)
  have hSt : tokens (cA ++ rA ++ ws1) = tokens cA := by
    rw [List.append_assoc]
    exact tokens_append_all_blank cA (rA ++ ws1) (fun c hc => by
      rcases List.mem_append.mp hc with h | h
      · exact hrA c h
      · exact hw1b c h)
  have hStne : tokens (cA ++ rA ++ ws1) ≠ [] := by
    rw [hSt]; exact tokens_core_ne_nil cA hcA
  have hcore : is_core (cA ++ rA ++ ws1 ++ '|' :: y) := by
    refine ⟨by simp, ?_, ?_⟩
    · intro c hc
      apply hcA.2.1 c
      cases hcA' : cA with
      | nil => exact absurd hcA' hcA.1
      | cons d ds =>
        rw [hcA'] at hc
        simpa using hc
    · intro c hc
      rw [List.getLast?_append_of_ne_nil _ (by simp)] at hc
      cases hyy : y with
      | nil =>
        rw [hyy] at hc
        simp at hc
        rw [← hc]
        decide
      | cons d ds =>
        rw [hyy, List.getLast?_cons_cons] at hc
        apply hyl c
        rw [hyy]
        exact hc
  have htrim := trimmed_of_core lA _ R hlA hR hcore
  have hpad := padding_of_core lA _ R (NUL :: rest) hlA hR hcore
  have hsplit : after_first (trimmed (lA ++ (cA ++ rA ++ ws1 ++ '|' :: y) ++ R))
      = after_first (cA ++ rA ++ ws1) ++ '|' :: y := by
    rw [htrim]
    exact after_first_append _ _ hSb hStne
  have hpt : tokens (after_first (cA ++ rA ++ ws1)) = (tokens cA).tail := by
    rw [tokens_after_first, hSt]
  have hp : ∀ t ∈ tokens (after_first (cA ++ rA ++ ws1)), t ≠ ['|'] := by
    rw [hpt]; exact hnp
  have hpb := ends_blank_after_first hSb
  refine ⟨?_, ?_, ?_⟩
  · apply parse_command_pipe f _ (NUL :: rest) command st _ y hnul rfl hsplit hpb hy hp hf r
    rw [hpad]
    exact hrec
  · rw [stage_tokens_of_split hsplit hpb hy hp, hpt]
  · rw [tokens_of_core lA _ R hlA hR hcore, tokens_append_of_ends_blank _ _ hSb, hSt]
    cases htc : tokens cA with
    | nil => exact absurd htc (tokens_core_ne_nil cA hcA)
    | cons t ts => rfl

theorem single_stage_blank (command : command_t) (B : List Char) (h : tokens B = []) :
    single_stage command B = single_stage command [] := by
  unfold single_stage
  rw [h, trimmed_eq_nil h]
  rfl

theorem dropWhile_terminated (z : List Char) (hz : terminated z) :
    z.dropWhile is_splitter = z := by
  cases z with
  | nil => rfl
  | cons d r =>
    have hd : d = NUL := hz
    subst hd
    simp [List.dropWhile_cons, is_splitter_NUL]

theorem parse_command_core_eq (f : Nat) (lB cB rB rest : List Char) (command : command_t)
    (st : parser_state) (hlB : all_blank lB) (hcB : is_core cB) (hrB : all_blank rB)
    (hn : NUL ∉ lB ++ cB ++ rB) :
    parse_command f (cB ++ (List.replicate rB.length NUL ++ NUL :: rest)) command st
      = parse_command f ((lB ++ cB ++ rB) ++ NUL :: rest) command st := by
  cases f with
  | zero => rfl
  | succ f =>
    have hnc : NUL ∉ cB := fun h => hn (by simp [h])
    have hterm : terminated (List.replicate rB.length NUL ++ NUL :: rest) := by
      cases rB.length <;> rfl
    have e0 : all_blank ([] : List Char) := fun c hc => by simp at hc
    have t1 := trimmed_of_core [] cB [] e0 e0 hcB
    have p1 := padding_of_core [] cB [] (List.replicate rB.length NUL ++ NUL :: rest) e0 e0 hcB
    simp only [List.nil_append, List.append_nil, List.length_nil, List.replicate_zero] at t1 p1
    rw [parse_command_eq f cB _ command st hnc hterm,
      parse_command_eq f (lB ++ cB ++ rB) (NUL :: rest) command st hn rfl,
      t1, p1, trimmed_of_core lB cB rB hlB hrB hcB,
      padding_of_core lB cB rB (NUL :: rest) hlB hrB hcB]

/-- The parse of a line `A | B`: the stage after the pipe is the parse of `B`
on the struct just allocated. -/
theorem parse_pipe_form (junk : Nat → command_t) (A B ws1 ws2 rest : List Char)
    (command : command_t) (hA : NUL ∉ A) (hB : NUL ∉ B)
    (hw1 : ws1 ≠ []) (hw1b : all_blank ws1) (hw2 : ws2 ≠ []) (hw2b : all_blank ws2)
    (hname : tokens A ≠ []) (hnp : ∀ t ∈ (tokens A).tail, t ≠ ['|']) :
    ∃ b, parse (fun k => junk (k + 1)) (B ++ NUL :: rest) (junk 0) = some b
      ∧ parse junk ((A ++ ws1 ++ '|' :: (ws2 ++ B)) ++ NUL :: rest) command
          = some (first_stage command (A ++ ws1 ++ '|' :: (ws2 ++ B)) (some b))
      ∧ stage_tokens (A ++ ws1 ++ '|' :: (ws2 ++ B)) = (tokens A).tail
      ∧ (tokens (A ++ ws1 ++ '|' :: (ws2 ++ B))).headD [] = (tokens A).headD [] := by
  obtain ⟨lA, cA, rA, rfl, hlA, hrA, hcA⟩ := trim_decomp A hname
  have htA : tokens (lA ++ cA ++ rA) = tokens cA := tokens_of_core lA cA rA hlA hrA hcA
  rw [htA] at hnp ⊢
  have hnw1 : NUL ∉ ws1 := fun h => absurd (hw1b NUL h) (by decide)
  have hnw2 : NUL ∉ ws2 := fun h => absurd (hw2b NUL h) (by decide)
  obtain ⟨b, st2, hb, -, -⟩ := parse_command_total ((B ++ NUL :: rest).length + 2)
    (B ++ NUL :: rest) (junk 0) ⟨[], fun k => junk (k + 1)⟩ le_rfl
  refine ⟨b, by unfold parse; rw [hb]; rfl, ?_⟩
  have hw2len : 0 < ws2.length := List.length_pos.mpr hw2
  have hw1len : 0 < ws1.length := List.length_pos.mpr hw1
  have hcAlen : 0 < cA.length := List.length_pos.mpr hcA.1
  by_cases hBt : tokens B = []
  · have hBb : all_blank B := tokens_nil hBt
    have hR : all_blank (ws2 ++ B) := fun c hc => by
      rcases List.mem_append.mp hc with h | h
      · exact hw2b c h
      · exact hBb c h
    have hL : lA ++ cA ++ rA ++ ws1 ++ '|' :: (ws2 ++ B)
        = lA ++ (cA ++ rA ++ ws1 ++ '|' :: []) ++ (ws2 ++ B) := by simp
    rw [hL]
    have hbs : b = single_stage (junk 0) [] := by
      have := parse_command_no_pipe ((B ++ NUL :: rest).length + 2) B (NUL :: rest) (junk 0)
        ⟨[], fun k => junk (k + 1)⟩ hB rfl (by simp [hBt]) (by simp)
      rw [hb] at this
      simp only [Option.some.injEq, Prod.mk.injEq] at this
      rw [this.1, single_stage_blank _ B hBt]
    obtain ⟨m, hm⟩ : ∃ m, (ws2 ++ B).length = m + 1 :=
      ⟨(ws2 ++ B).length - 1, by simp; omega⟩
    have hzt : terminated (List.replicate m NUL ++ NUL :: rest) := by
      cases m <;> rfl
    have hM : ([] ++ (List.replicate (ws2 ++ B).length NUL ++ NUL :: rest)).tail.dropWhile
        is_splitter = [] ++ (List.replicate m NUL ++ NUL :: rest) := by
      rw [hm, List.replicate_succ]
      simpa using dropWhile_terminated _ hzt
    have hnul : NUL ∉ lA ++ (cA ++ rA ++ ws1 ++ '|' :: []) ++ (ws2 ++ B) := by
      rw [← hL]
      intro h
      simp only [List.mem_append, List.mem_cons] at h hA
      rcases h with ((h | h) | h)
      · exact hA h
      · exact hnw1 h
      · rcases h with h | h | h
        · exact absurd h (by decide)
        · exact hnw2 h
        · exact hB h
    have hrec := parse_command_no_pipe
      ((lA ++ (cA ++ rA ++ ws1 ++ '|' :: []) ++ (ws2 ++ B)).length + rest.length + 2) []
      (List.replicate m NUL ++ NUL :: rest) (junk 0) ⟨[], fun k => junk (k + 1)⟩
      (by simp) hzt (by simp [tokens, tokens_aux]) (by simp)
    rw [← hM] at hrec
    have key := pipe_form_core lA cA rA ws1 [] (ws2 ++ B) rest command ⟨[], junk⟩ _
      hlA hcA hrA hw1 hw1b (by simp) (by simp) hR hnul hnp (by omega) _ hrec
    refine ⟨?_, key.2.1, key.2.2⟩
    unfold parse
    have hfuel : ((lA ++ (cA ++ rA ++ ws1 ++ '|' :: []) ++ (ws2 ++ B)) ++ NUL :: rest).length + 2
        = ((lA ++ (cA ++ rA ++ ws1 ++ '|' :: []) ++ (ws2 ++ B)).length + rest.length + 2) + 1 := by
      simp only [List.length_append, List.length_cons]
      omega
    rw [hfuel, key.1, hbs]
    rfl
  · obtain ⟨lB, cB, rB, rfl, hlB, hrB, hcB⟩ := trim_decomp B hBt
    have hL : lA ++ cA ++ rA ++ ws1 ++ '|' :: (ws2 ++ (lB ++ cB ++ rB))
        = lA ++ (cA ++ rA ++ ws1 ++ '|' :: (ws2 ++ lB ++ cB)) ++ rB := by simp
    rw [hL]
    have hnul : NUL ∉ lA ++ (cA ++ rA ++ ws1 ++ '|' :: (ws2 ++ lB ++ cB)) ++ rB := by
      rw [← hL]
      intro h
      simp only [List.mem_append, List.mem_cons] at h hA hB
      rcases h with ((h | h) | h)
      · exact hA h
      · exact hnw1 h
      · rcases h with h | h | h
        · exact absurd h (by decide)
        · exact hnw2 h
        · exact hB h
    have hM : ((ws2 ++ lB ++ cB) ++ (List.replicate rB.length NUL ++ NUL :: rest)).tail.dropWhile
        is_splitter = cB ++ (List.replicate rB.length NUL ++ NUL :: rest) := by
      cases hws : ws2 with
      | nil => exact absurd hws hw2
      | cons w ws =>
        have hwb : all_blank (ws ++ lB) := fun c hc => by
          rcases List.mem_append.mp hc with h | h
          · exact hw2b c (by simp [hws, h])
          · exact hlB c h
        have : ((w :: ws ++ lB ++ cB) ++ (List.replicate rB.length NUL ++ NUL :: rest)).tail
            = (ws ++ lB) ++ (cB ++ (List.replicate rB.length NUL ++ NUL :: rest)) := by simp
        rw [this, List.dropWhile_append_of_pos hwb, dropWhile_core_append cB _ hcB]
    have hfB : (lB ++ cB ++ rB ++ NUL :: rest).length + 2
        ≤ (lA ++ (cA ++ rA ++ ws1 ++ '|' :: (ws2 ++ lB ++ cB)) ++ rB).length + rest.length + 2 := by
      simp only [List.length_append, List.length_cons]
      omega
    have hrec := parse_command_fuel _ _ _ _ _ _ hb hfB
    rw [← parse_command_core_eq _ lB cB rB rest _ _ hlB hcB hrB hB, ← hM] at hrec
    have hyl : ∀ c, (ws2 ++ lB ++ cB).getLast? = some c → is_splitter c = false := by
      intro c hc
      rw [List.getLast?_append_of_ne_nil _ hcB.1] at hc
      exact hcB.2.2 c hc
    have hyh : ∀ c, (ws2 ++ lB ++ cB).head? = some c → is_splitter c = true := by
      intro c hc
      cases hws : ws2 with
      | nil => exact absurd hws hw2
      | cons w ws =>
        rw [hws] at hc
        simp only [List.cons_append, List.head?_cons, Option.some.injEq] at hc
        exact hw2b c (by simp [hws, hc])
    have key := pipe_form_core lA cA rA ws1 (ws2 ++ lB ++ cB) rB rest command ⟨[], junk⟩ _
      hlA hcA hrA hw1 hw1b hyh hyl hrB hnul hnp (by omega) _ hrec
    refine ⟨?_, key.2.1, key.2.2⟩
    unfold parse
    have hfuel : ((lA ++ (cA ++ rA ++ ws1 ++ '|' :: (ws2 ++ lB ++ cB)) ++ rB)
          ++ NUL :: rest).length + 2
        = ((lA ++ (cA ++ rA ++ ws1 ++ '|' :: (ws2 ++ lB ++ cB)) ++ rB).length
            + rest.length + 2) + 1 := by
      simp only [List.length_append, List.length_cons]
      omega
    rw [hfuel, key.1]
    rfl

/-! ## The stage built for a line, field by field -/

theorem entry_command_background (command : command_t) (s : List Char) :
    (entry_command command s).background
      = (command.background || (s.getLast? == some '&')) := by
  unfold entry_command
  by_cases h1 : s.getLast? = some '&'
  · have h2 : ¬ s.getLast? = some '?' := by rw [h1]; decide
    simp [h1]
  · by_cases h2 : s.getLast? = some '?' <;> simp [h1, h2]

theorem entry_command_next (command : command_t) (s : List Char) :
    (entry_command command s).next = command.next := by
  unfold entry_command
  split_ifs <;> rfl

theorem first_stage_fields (command : command_t) (line : List Char) (nx : Option command_t) :
    (first_stage command line nx).name = (tokens line).headD []
      ∧ (first_stage command line nx).background
          = (command.background || ((trimmed line).getLast? == some '&'))
      ∧ (first_stage command line nx).args
          = some ((tokens line).headD []) :: (positional (stage_tokens line)).map some ++ [none]
      ∧ (first_stage command line nx).arg_count = (positional (stage_tokens line)).length + 2
      ∧ (first_stage command line nx).redirects 0
          = (last_stdin (stage_tokens line)).elim (command.redirects 0) some
      ∧ (first_stage command line nx).redirects 1
          = (last_truncate (stage_tokens line)).elim (command.redirects 1) some
      ∧ (first_stage command line nx).redirects 2
          = (last_append (stage_tokens line)).elim (command.redirects 2) some
      ∧ (first_stage command line nx).next = nx := by
  have hf := fold_fields (stage_tokens line) (entry_command command (trimmed line), [])
  have ha := fold_args (stage_tokens line) (entry_command command (trimmed line), [])
  have hr := fold_redirects (stage_tokens line) (entry_command command (trimmed line), [])
  simp only [entry_command_redirects] at hr
  simp only [entry_command_name, entry_command_background, tokens_trimmed] at hf
  unfold first_stage reframe
  simp only
  refine ⟨hf.1, hf.2.1, ?_, ?_, hr.1, hr.2.1, hr.2.2, trivial⟩
  · rw [hf.1, ha]; rfl
  · rw [ha]; simp

theorem stage_tokens_no_pipe (line : List Char) (hp : ∀ t ∈ (tokens line).tail, t ≠ ['|']) :
    stage_tokens line = (tokens line).tail := by
  rw [stage_tokens, List.takeWhile_eq_self_iff]
  intro t ht
  simpa using hp t ht

/-- The stage `parse` returns for a line with no `|` token after the first. -/
theorem parse_no_pipe_fields (junk : Nat → command_t) (line rest : List Char)
    (command : command_t) (hl : NUL ∉ line) (hp : ∀ t ∈ (tokens line).tail, t ≠ ['|']) :
    ∃ r, parse junk (line ++ NUL :: rest) command = some r
      ∧ r.name = (tokens line).headD []
      ∧ r.background = (command.background || ((trimmed line).getLast? == some '&'))
      ∧ r.args = some ((tokens line).headD []) :: (positional (tokens line).tail).map some
          ++ [none]
      ∧ r.arg_count = (positional (tokens line).tail).length + 2
      ∧ r.redirects 0 = (last_stdin (tokens line).tail).elim (command.redirects 0) some
      ∧ r.redirects 1 = (last_truncate (tokens line).tail).elim (command.redirects 1) some
      ∧ r.redirects 2 = (last_append (tokens line).tail).elim (command.redirects 2) some
      ∧ r.next = command.next := by
  refine ⟨_, parse_no_pipe junk line rest command hl hp, ?_⟩
  rw [single_eq_first command line hp]
  have h := first_stage_fields command line command.next
  rw [stage_tokens_no_pipe line hp] at h
  exact h

/-- The stage `parse` returns for any line: it always returns, and the first
stage is built from the tokens before the first `|`. -/
theorem parse_total_fields (junk : Nat → command_t) (line rest : List Char)
    (command : command_t) (hl : NUL ∉ line) :
    ∃ r, parse junk (line ++ NUL :: rest) command = some r
      ∧ r.name = (tokens line).headD []
      ∧ r.background = (command.background || ((trimmed line).getLast? == some '&'))
      ∧ r.args = some ((tokens line).headD []) :: (positional (stage_tokens line)).map some
          ++ [none]
      ∧ ((r.next = command.next ∧ ['|'] ∉ (tokens line).tail)
          ∨ (r.next.isSome = true ∧ ['|'] ∈ (tokens line).tail)) := by
  obtain ⟨r, st', h, -, nx, hr, hnx⟩ := parse_command_total
    ((line ++ NUL :: rest).length + 2) (line ++ NUL :: rest) command ⟨[], junk⟩ le_rfl
  rw [cstr_append line (NUL :: rest) hl rfl] at hr hnx
  have hf := first_stage_fields command line nx
  rw [← hr] at hf
  refine ⟨r, by unfold parse; rw [h]; rfl, hf.1, hf.2.1, hf.2.2.1, ?_⟩
  rw [hf.2.2.2.2.2.2.2]
  exact hnx

/-! ## The claims on `parse_command` -/

/-- The first stage of a line `A`, blanks, `|`, blanks, `B`, where `A` has a
command name and no token `|` after it: its name, argument array (hence
positional arguments) and redirect slots are those of parsing `A` alone.  Its
`next` stage is what `parse_command` makes of `B` when it starts from the
struct `malloc` returned, whose contents `junk 0` are not cleared: the fields
that the text of `B` does not set keep those contents. -/
theorem parse_command_pipe_stage (junk : Nat → command_t) (A B ws1 ws2 rest restA : List Char)
    (command : command_t) (hA : NUL ∉ A) (hB : NUL ∉ B)
    (hw1 : ws1 ≠ []) (hw1b : all_blank ws1) (hw2 : ws2 ≠ []) (hw2b : all_blank ws2)
    (hname : tokens A ≠ []) (hnp : ∀ t ∈ (tokens A).tail, t ≠ ['|']) :
    ∃ r a b,
      parse junk ((A ++ ws1 ++ '|' :: (ws2 ++ B)) ++ NUL :: rest) command = some r
        ∧ parse junk (A ++ NUL :: restA) command = some a
        ∧ parse (fun k => junk (k + 1)) (B ++ NUL :: rest) (junk 0) = some b
        ∧ r.name = a.name ∧ r.args = a.args ∧ r.arg_count = a.arg_count
        ∧ r.redirects = a.redirects ∧ r.next = some b := by
  obtain ⟨b, hb, hr, h1, h2⟩ :=
    parse_pipe_form junk A B ws1 ws2 rest command hA hB hw1 hw1b hw2 hw2b hname hnp
  have ha := parse_no_pipe junk A restA command hA hnp
  obtain ⟨e1, e2, e3, e4⟩ := stage_fields_eq command _ A (some b) h1 h2
  exact ⟨_, _, b, hr, ha, hb, e1, e2, e3, e4, rfl⟩

theorem tokens_word (w : List Char) (hne : w ≠ []) (hw : ∀ c ∈ w, is_splitter c = false) :
    tokens w = [w] := by
  have := tokens_aux_stop w [] [] hw (by simp)
  simpa [tokens, tokens_aux, hne] using this

theorem tokens_word_blank (w b : List Char) (hne : w ≠ []) (hw : ∀ c ∈ w, is_splitter c = false) :
    tokens (w ++ ' ' :: b) = w :: tokens b := by
  rw [tokens_append_blank w b ' ' (by decide), tokens_word w hne hw]
  rfl

theorem tokens_join_spaces (ws : List (List Char))
    (h : ∀ w ∈ ws, w ≠ [] ∧ ∀ c ∈ w, is_splitter c = false) :
    tokens (join_spaces ws) = ws := by
  induction ws with
  | nil => rfl
  | cons w ws ih =>
    cases ws with
    | nil => exact tokens_word w (h w (by simp)).1 (h w (by simp)).2
    | cons v vs =>
      rw [join_spaces, tokens_word_blank w _ (h w (by simp)).1 (h w (by simp)).2,
        ih (fun x hx => h x (by simp [hx]))]

theorem not_mem_join_spaces (ws : List (List Char)) (h : ∀ w ∈ ws, NUL ∉ w) :
    NUL ∉ join_spaces ws := by
  induction ws with
  | nil => simp [join_spaces]
  | cons w ws ih =>
    cases ws with
    | nil => exact h w (by simp)
    | cons v vs =>
      rw [join_spaces]
      intro hm
      rcases List.mem_append.mp hm with hm | hm
      · exact h w (by simp) hm
      · rcases List.mem_cons.mp hm with hm | hm
        · exact absurd hm (by decide)
        · exact ih (fun x hx => h x (by simp [hx])) hm

/-! ## The redirection example -/

/-- C4, as the code has it: in `sort < f > g` the tokens `<` and `>` stand
alone, so both slots are set to the empty string and `f` and `g` are
positional arguments; the slots are `f` and `g`, with no positional argument,
when the names are written against the operators, `sort <f >g`. -/
theorem parse_sort_redirection (junk : Nat → command_t) (f g rest : List Char)
    (hf : clean_name f) (hg : clean_name g) :
    (∃ r, parse junk ("sort < ".toList ++ f ++ " > ".toList ++ g ++ NUL :: rest) command_zero
          = some r
        ∧ r.name = "sort".toList
        ∧ r.redirects 0 = some [] ∧ r.redirects 1 = some [] ∧ r.redirects 2 = none
        ∧ r.args = [some "sort".toList, some f, some g, none])
    ∧ (∃ r, parse junk ("sort <".toList ++ f ++ " >".toList ++ g ++ NUL :: rest) command_zero
          = some r
        ∧ r.name = "sort".toList
        ∧ r.redirects 0 = some f ∧ r.redirects 1 = some g ∧ r.redirects 2 = none
        ∧ r.args = [some "sort".toList, none]) := by
  obtain ⟨hfne, hfc⟩ := hf
  obtain ⟨hgne, hgc⟩ := hg
  have hfs : ∀ c ∈ f, is_splitter c = false := fun c hc => (hfc c hc).1
  have hgs : ∀ c ∈ g, is_splitter c = false := fun c hc => (hgc c hc).1
  have hfn : NUL ∉ f := fun h => (hfc NUL h).2.2.2.2.2.2.2 rfl
  have hgn : NUL ∉ g := fun h => (hgc NUL h).2.2.2.2.2.2.2 rfl
  obtain ⟨a, f', rfl⟩ := List.exists_cons_of_ne_nil hfne
  obtain ⟨b, g', rfl⟩ := List.exists_cons_of_ne_nil hgne
  obtain ⟨-, a1, a2, a3, a4, a5, a6, -⟩ := hfc a (by simp)
  obtain ⟨-, b1, b2, b3, b4, b5, b6, -⟩ := hgc b (by simp)
  constructor
  · have hline : "sort < ".toList ++ (a :: f') ++ " > ".toList ++ (b :: g')
        = "sort".toList ++ ' ' :: (['<'] ++ ' ' :: ((a :: f') ++ ' ' :: (['>'] ++ ' ' :: (b :: g')))) := by
      simp
    have htok : tokens ("sort < ".toList ++ (a :: f') ++ " > ".toList ++ (b :: g'))
        = ["sort".toList, ['<'], a :: f', ['>'], b :: g'] := by
      rw [hline, tokens_word_blank _ _ (by decide) (by decide),
        tokens_word_blank _ _ (by decide) (by decide),
        tokens_word_blank _ _ (by simp) hfs,
        tokens_word_blank _ _ (by decide) (by decide),
        tokens_word _ (by simp) hgs]
    have hnul : NUL ∉ "sort < ".toList ++ (a :: f') ++ " > ".toList ++ (b :: g') := by
      intro h
      simp only [List.mem_append] at h
      rcases h with ((h | h) | h) | h
      · revert h; decide
      · exact hfn h
      · revert h; decide
      · exact hgn h
    obtain ⟨r, hr, hname, -, hargs, -, h0, h1, h2, -⟩ :=
      parse_no_pipe_fields junk _ rest command_zero hnul (by
        rw [htok]
        intro t ht
        simp only [List.tail_cons, List.mem_cons, List.mem_singleton, List.not_mem_nil,
          or_false] at ht
        rcases ht with rfl | rfl | rfl | rfl
        · decide
        · simp [a5]
        · decide
        · simp [b5])
    rw [htok] at hname hargs h0 h1 h2
    refine ⟨r, hr, hname, ?_, ?_, ?_, ?_⟩
    · rw [h0]
      simp [last_stdin, List.filter_cons, a3, b3, command_zero]
    · rw [h1]
      simp [last_truncate, List.filter_cons, a4, b4, command_zero, List.isPrefixOf]
    · rw [h2]
      simp [last_append, List.filter_cons, command_zero, List.isPrefixOf, Ne.symm a4,
        Ne.symm b4]
    · rw [hargs]
      simp [positional, List.filter_cons, is_redirect, unquote, is_quoted, a1, a2, a3, a4, a6,
        b1, b2, b3, b4, b6]
  · have hline : "sort <".toList ++ (a :: f') ++ " >".toList ++ (b :: g')
        = "sort".toList ++ ' ' :: (('<' :: a :: f') ++ ' ' :: ('>' :: b :: g')) := by
      simp
    have hfs' : ∀ c ∈ '<' :: a :: f', is_splitter c = false := by
      intro c hc
      rcases List.mem_cons.mp hc with rfl | hc
      · decide
      · exact hfs c hc
    have hgs' : ∀ c ∈ '>' :: b :: g', is_splitter c = false := by
      intro c hc
      rcases List.mem_cons.mp hc with rfl | hc
      · decide
      · exact hgs c hc
    have htok : tokens ("sort <".toList ++ (a :: f') ++ " >".toList ++ (b :: g'))
        = ["sort".toList, '<' :: a :: f', '>' :: b :: g'] := by
      rw [hline, tokens_word_blank _ _ (by decide) (by decide),
        tokens_word_blank _ _ (by simp) hfs', tokens_word _ (by simp) hgs']
    have hnul : NUL ∉ "sort <".toList ++ (a :: f') ++ " >".toList ++ (b :: g') := by
      intro h
      simp only [List.mem_append] at h
      rcases h with ((h | h) | h) | h
      · revert h; decide
      · exact hfn h
      · revert h; decide
      · exact hgn h
    obtain ⟨r, hr, hname, -, hargs, -, h0, h1, h2, -⟩ :=
      parse_no_pipe_fields junk _ rest command_zero hnul (by
        rw [htok]
        intro t ht
        simp only [List.tail_cons, List.mem_cons, List.mem_singleton, List.not_mem_nil,
          or_false] at ht
        rcases ht with rfl | rfl <;> simp)
    rw [htok] at hname hargs h0 h1 h2
    refine ⟨r, hr, hname, ?_, ?_, ?_, ?_⟩
    · rw [h0]
      simp [last_stdin, List.filter_cons, command_zero]
    · rw [h1]
      simp [last_truncate, List.filter_cons, command_zero, List.isPrefixOf, Ne.symm b4]
    · rw [h2]
      simp [last_append, List.filter_cons, command_zero, List.isPrefixOf, Ne.symm b4]
    · rw [hargs]
      simp [positional, List.filter_cons, is_redirect]

/-! ## Parsing again what was parsed -/

theorem reduceOption_map_some (l : List (List Char)) : (l.map some).reduceOption = l := by
  induction l with
  | nil => rfl
  | cons a l ih => simp [List.reduceOption_cons_of_some, ih]

theorem stage_args_of_args (c : command_t) (n : List Char) (P : List (List Char))
    (h : c.args = some n :: P.map some ++ [none]) : stage_args c = P := by
  unfold stage_args
  rw [h]
  simp only [List.cons_append, List.tail_cons, List.dropLast_concat]
  exact reduceOption_map_some P

theorem unquote_props (u : List Char) (Q : Char → Prop) (hne : u ≠ []) (hq : ∀ c ∈ u, Q c) :
    unquote u ≠ [] ∧ ∀ c ∈ unquote u, Q c := by
  unfold unquote
  by_cases h : is_quoted u = true
  · rw [if_pos h]
    have hlen : 2 < u.length := by
      unfold is_quoted at h
      simp only [Bool.and_eq_true, decide_eq_true_eq] at h
      exact h.1
    constructor
    · intro he
      have := congrArg List.length he
      simp at this
      omega
    · intro c hc
      exact hq c ((List.dropLast_subset u) ((List.tail_subset _) hc))
  · rw [if_neg h]
    exact ⟨hne, hq⟩

theorem positional_props (ts : List (List Char)) (Q : Char → Prop)
    (h : ∀ t ∈ ts, t ≠ [] ∧ ∀ c ∈ t, Q c) :
    ∀ p ∈ positional ts, p ≠ [] ∧ ∀ c ∈ p, Q c := by
  intro p hp
  unfold positional at hp
  obtain ⟨u, hu, rfl⟩ := List.mem_map.mp hp
  have hu' := (List.mem_filter.mp hu).1
  exact unquote_props u Q (h u hu').1 (h u hu').2

theorem positional_clean (P : List (List Char))
    (h : ∀ p ∈ P, p ≠ ['&'] ∧ p ≠ ['|'] ∧ is_redirect p = false ∧ is_quoted p = false) :
    positional P = P := by
  unfold positional
  have h1 : P.filter (fun t => t != ['&'] && !is_redirect t) = P := by
    rw [List.filter_eq_self]
    intro p hp
    obtain ⟨a, -, b, -⟩ := h p hp
    simp [a, b]
  rw [h1]
  conv_rhs => rw [← List.map_id P]
  apply List.map_congr_left
  intro p hp
  simp [unquote, (h p hp).2.2.2]

theorem redirects_clean (P : List (List Char)) (h : ∀ p ∈ P, is_redirect p = false) :
    last_stdin P = none ∧ last_truncate P = none ∧ last_append P = none := by
  have e1 : P.filter (fun t => t.head? == some '<') = [] := by
    rw [List.filter_eq_nil_iff]
    intro p hp hc
    have := h p hp
    simp only [is_redirect, Bool.or_eq_false_iff] at this
    rw [this.1] at hc
    simp at hc
  have e2 : P.filter (fun t => t.head? == some '>' && !(['>', '>'].isPrefixOf t)) = [] := by
    rw [List.filter_eq_nil_iff]
    intro p hp hc
    have := h p hp
    simp only [is_redirect, Bool.or_eq_false_iff] at this
    rw [this.2] at hc
    simp at hc
  have e3 : P.filter (fun t => ['>', '>'].isPrefixOf t) = [] := by
    rw [List.filter_eq_nil_iff]
    intro p hp hc
    have := h p hp
    simp only [is_redirect, Bool.or_eq_false_iff] at this
    have h2 := isPrefixOf_gt_head p hc
    rw [h2] at this
    exact absurd this.2 (by decide)
  simp [last_stdin, last_truncate, last_append, e1, e2, e3]

/-- C6, as the code has it: when a line parses to a single stage with no
redirect slot set, and none of the stage's positional arguments is `&` or `|`,
begins with `<` or `>`, or is wrapped in quotes (the quote rule applies to
it), then parsing its name and positional arguments joined by single spaces
gives a stage with the same name, the same positional arguments, the same
(unset) redirect slots, and no next stage. -/
theorem reparse_clean (junk : Nat → command_t) (line rest rest' : List Char) (s : command_t)
    (hl : NUL ∉ line) (hs : parse junk (line ++ NUL :: rest) command_zero = some s)
    (hnext : s.next = none) (hred : ∀ i, s.redirects i = none)
    (hclean : ∀ p ∈ stage_args s,
      p ≠ ['&'] ∧ p ≠ ['|'] ∧ is_redirect p = false ∧ is_quoted p = false) :
    ∃ s', parse junk (rejoin s ++ NUL :: rest') command_zero = some s'
      ∧ s'.name = s.name ∧ stage_args s' = stage_args s
      ∧ (∀ i, s'.redirects i = s.redirects i) ∧ s'.next = none := by
  obtain ⟨r, h, hname, -, hargs, hnx⟩ := parse_total_fields junk line rest command_zero hl
  rw [hs] at h
  obtain rfl : s = r := Option.some.inj h
  have hnp : ∀ t ∈ (tokens line).tail, t ≠ ['|'] := by
    rcases hnx with ⟨-, hno⟩ | ⟨hsome, -⟩
    · exact fun t ht e => hno (e ▸ ht)
    · rw [hnext] at hsome
      exact absurd hsome (by decide)
  rw [stage_tokens_no_pipe line hnp] at hargs
  have hsa := stage_args_of_args s _ _ hargs
  rw [hsa] at hclean
  have hwords : ∀ w ∈ (tokens line).headD [] :: positional (tokens line).tail,
      (tokens line ≠ [] → w ≠ [] ∧ ∀ c ∈ w, is_splitter c = false ∧ c ≠ NUL) := by
    intro w hw hne
    have hall : ∀ t ∈ tokens line, t ≠ [] ∧ ∀ c ∈ t, is_splitter c = false ∧ c ≠ NUL := by
      intro t ht
      obtain ⟨h1, h2, h3⟩ := token_props line t ht
      exact ⟨h1, fun c hc => ⟨h2 c hc, fun e => h3 hl (e ▸ hc)⟩⟩
    rcases List.mem_cons.mp hw with rfl | hw
    · cases htk : tokens line with
      | nil => exact absurd htk hne
      | cons t ts => exact hall t (by simp [htk])
    · exact positional_props (tokens line).tail _
        (fun t ht => hall t (List.mem_of_mem_tail ht)) w hw
  have hjoin : tokens (rejoin s) = (tokens line).headD [] :: positional (tokens line).tail
      ∨ (tokens line = [] ∧ rejoin s = []) := by
    unfold rejoin
    rw [hname, hsa]
    by_cases hne : tokens line = []
    · right
      refine ⟨hne, ?_⟩
      rw [hne]
      rfl
    · left
      apply tokens_join_spaces
      intro w hw
      exact ⟨(hwords w hw hne).1, fun c hc => ((hwords w hw hne).2 c hc).1⟩
  have hnul : NUL ∉ rejoin s := by
    unfold rejoin
    rw [hname, hsa]
    by_cases hne : tokens line = []
    · rw [hne]
      simp [join_spaces, positional]
    · apply not_mem_join_spaces
      intro w hw hc
      exact ((hwords w hw hne).2 NUL hc).2 rfl
  have htail : (tokens (rejoin s)).tail = positional (tokens line).tail := by
    rcases hjoin with hj | ⟨hne, hj⟩
    · rw [hj]; rfl
    · rw [hj, hne]; rfl
  have hhead : (tokens (rejoin s)).headD [] = (tokens line).headD [] := by
    rcases hjoin with hj | ⟨hne, hj⟩
    · rw [hj]; rfl
    · rw [hj, hne]; rfl
  obtain ⟨s', hs', hname', -, hargs', -, h0, h1, h2, hnext'⟩ :=
    parse_no_pipe_fields junk (rejoin s) rest' command_zero hnul (by
      rw [htail]
      exact fun p hp => (hclean p hp).2.1)
  rw [htail] at hargs' h0 h1 h2
  rw [positional_clean _ hclean] at hargs'
  obtain ⟨c0, c1, c2⟩ := redirects_clean _ (fun p hp => (hclean p hp).2.2.1)
  rw [hhead] at hname' hargs'
  refine ⟨s', hs', hname'.trans hname.symm, ?_, ?_, hnext'⟩
  · rw [stage_args_of_args s' _ _ hargs', hsa]
  · intro i
    rw [hred i]
    rw [c0] at h0
    rw [c1] at h1
    rw [c2] at h2
    fin_cases i
    · exact h0
    · exact h1
    · exact h2

/-! ## Completion with a single match -/

theorem strtok_progress (d : Char → Bool) (s save : List Char) (tk : token)
    (h : strtok d s = (some tk, save)) : save.length < s.length := by
  unfold strtok at h
  have hsuf : (s.dropWhile d).length ≤ s.length := (List.dropWhile_suffix d).length_le
  cases hs1 : s.dropWhile d with
  | nil => rw [hs1] at h; simp at h
  | cons c r =>
    rw [hs1] at h hsuf
    by_cases hc : (c == NUL) = true
    · simp [hc] at h
    · have hdc : d c = false := dropWhile_head_false d s c (by simp [hs1])
      simp only [hc, Bool.false_eq_true, if_false, Prod.mk.injEq, Option.some.injEq] at h
      have hP : (!d c && c != NUL) = true := by
        have : (c != NUL) = true := by simpa using hc
        simp [hdc, this]
      have he : (List.dropWhile (fun c => !d c && c != NUL) (c :: r)).length ≤ r.length := by
        rw [List.dropWhile_cons, if_pos hP]
        exact (List.dropWhile_suffix _).length_le
      have hsave : save.length
          ≤ (List.dropWhile (fun c => !d c && c != NUL) (c :: r)).length := by
        rw [← h.2]
        cases List.dropWhile (fun c => !d c && c != NUL) (c :: r) with
        | nil => simp
        | cons x xs =>
          by_cases hx : (x == NUL) = true <;> simp [hx]
      simp only [List.length_cons] at hsuf
      omega

theorem scan_dir_eq (u : List Char) (hu : NUL ∉ u) (entries matched : List (List Char)) :
    scan_dir u entries matched = matched ++ (entries.map cstr).filter (is_match u) := by
  have hcu : cstr u = u := by
    have := cstr_append u [] hu rfl
    simpa using this
  have hlen : strlen u = u.length := by
    have := strlen_append u [] hu rfl
    simpa using this
  induction entries generalizing matched with
  | nil => simp [scan_dir]
  | cons e entries ih =>
    rw [scan_dir]
    have hpre : strncmp_eq e u (strlen u) = u.isPrefixOf (cstr e) := by
      unfold strncmp_eq
      rw [hcu, hlen, List.take_length]
      rw [Bool.eq_iff_iff]
      simp only [beq_iff_eq, List.isPrefixOf_iff_prefix]
      rw [List.prefix_iff_eq_take]
      exact eq_comm
    by_cases h1 : cstr e = ['.'] ∨ cstr e = ['.', '.']
    · rw [if_pos h1, ih]
      have : is_match u (cstr e) = false := by
        unfold is_match
        rcases h1 with h1 | h1 <;> simp [h1]
      simp [List.filter_cons, this]
    · rw [if_neg h1]
      have h1' : cstr e ≠ ['.'] ∧ cstr e ≠ ['.', '.'] := by
        constructor
        · exact fun h => h1 (Or.inl h)
        · exact fun h => h1 (Or.inr h)
      by_cases h2 : u.isPrefixOf (cstr e) = true
      · rw [hpre, if_pos h2, ih]
        have : is_match u (cstr e) = true := by
          unfold is_match
          simp [h1'.1, h1'.2, h2]
        simp [List.filter_cons, this]
      · rw [hpre, if_neg h2, ih]
        have : is_match u (cstr e) = false := by
          unfold is_match
          simp [h2]
        simp [List.filter_cons, this]

theorem path_loop_eq (env : env_t) (u : List Char) (hu : NUL ∉ u) :
    ∀ (fuel : Nat) (s : List Char) (matched : List (List Char)), s.length < fuel →
      path_loop env u (fuel + 1) (strtok (fun c => c == ':') s).1
          (strtok (fun c => c == ':') s).2 matched
        = some (matched ++ ((strtok_all (fun c => c == ':') fuel s).flatMap
            (fun d => ((env.opendir d).getD []).map cstr)).filter (is_match u)) := by
  intro fuel
  induction fuel with
  | zero => intro s matched h; omega
  | succ fuel ih =>
    intro s matched hlen
    cases hst : strtok (fun c => c == ':') s with
    | mk o save =>
      cases o with
      | none => simp [path_loop, strtok_all, hst]
      | some tk =>
        have hprog := strtok_progress _ s save tk hst
        rw [path_loop]
        simp only
        rw [ih save _ (by omega), strtok_all, hst]
        simp only [List.flatMap_cons, List.filter_append]
        cases hop : env.opendir tk.pch with
        | none => simp
        | some entries =>
          simp only [Option.getD_some]
          rw [scan_dir_eq u hu, List.append_assoc]

theorem strchr_append (p rest : List Char) (c : Char) (hc : c ∉ p) (hn : NUL ∉ p) :
    strchr (p ++ c :: rest) c = some p.length := by
  induction p with
  | nil => simp [strchr]
  | cons d p ih =>
    have hd : (d == c) = false := by
      have : d ≠ c := fun e => hc (by simp [e])
      simpa using this
    have hdn : (d == NUL) = false := by
      have : d ≠ NUL := fun e => hn (by simp [e])
      simpa using this
    have := ih (fun h => hc (by simp [h])) (fun h => hn (by simp [h]))
    simp [strchr, hd, hdn, this]

theorem poke_append (p rest : List Char) (c x : Char) :
    poke (p ++ c :: rest) p.length x = p ++ x :: rest := by
  unfold poke
  rw [if_pos (by simp)]
  exact set_append_length p rest c x

/-- C9: when exactly one entry `m` other than `.` and `..` among the names
listed by the search-path directories starts with `p`, and `p` has no `?`,
`autocomplete` on the buffer `p?` (index `|p| + 1`) leaves the string `m` in
the buffer, sets the index to the length of `m`, and writes exactly the rest of
`m` after `p` to the terminal. -/
theorem autocomplete_unique (env : env_t) (path p m rest : List Char)
    (hpath : env.PATH = some path) (hq : '?' ∉ p)
    (huniq : (search_entries env path).filter (is_match p) = [m]) :
    ∃ r, autocomplete env (p ++ '?' :: rest) (p.length + 1) = some r
      ∧ cstr r.buf = m ∧ r.index = m.length ∧ r.out = m.drop p.length := by
  have hm : m ∈ (search_entries env path).filter (is_match p) := by rw [huniq]; simp
  obtain ⟨hmem, hmatch⟩ := List.mem_filter.mp hm
  have hmn : NUL ∉ m := by
    unfold search_entries at hmem
    obtain ⟨d, -, hd⟩ := List.mem_flatMap.mp hmem
    obtain ⟨e, -, rfl⟩ := List.mem_map.mp hd
    exact cstr_not_mem e
  have hpre : p <+: m := by
    unfold is_match at hmatch
    simp only [Bool.and_eq_true, List.isPrefixOf_iff_prefix] at hmatch
    exact hmatch.2
  have hpn : NUL ∉ p := fun h => hmn (hpre.subset h)
  have hpm : p ++ m.drop p.length = m := by
    obtain ⟨t, rfl⟩ := hpre
    simp
  have hloop := path_loop_eq env p hpn ((cstr path).length + 1) (cstr path) [] (by omega)
  have hlenp : strlen p = p.length := by
    have := strlen_append p [] hpn rfl
    simpa using this
  have hlen2 : strlen (p ++ NUL :: rest) = p.length := strlen_append p _ hpn rfl
  have htake : (p ++ '?' :: rest).take p.length = p := by simp
  unfold autocomplete
  rw [hpath]
  simp only [strchr_append p rest '?' hq hpn, htake]
  rw [hloop]
  have hs : (strtok_all (fun c => c == ':') ((cstr path).length + 1) (cstr path)).flatMap
      (fun d => ((env.opendir d).getD []).map cstr) = search_entries env path := rfl
  rw [hs, huniq]
  simp only [List.nil_append, List.length_singleton, if_true, List.headD_cons, hlenp,
    poke_append]
  refine ⟨_, rfl, ?_, ?_, rfl⟩
  · unfold strcat
    rw [hlen2]
    have : (p ++ NUL :: rest).take p.length = p := by simp
    rw [this, hpm]
    exact cstr_append m _ hmn rfl
  · unfold strcat
    rw [hlen2]
    have : (p ++ NUL :: rest).take p.length = p := by simp
    rw [this, hpm]
    exact strlen_append m _ hmn rfl

/-! ## The line reader -/

/-- The terminal settings `prompt` leaves: restored when it returns `SUCCESS`,
still without `ICANON` and `ECHO` when it returns `EXIT`. -/
theorem prompt_term (env : env_t) (junk : Nat → command_t) (term : termios)
    (oldbuf buf0 : List Char) (command : command_t) (input : List Char) (r : prompt_result)
    (h : prompt env junk term oldbuf buf0 command input = some r) :
    (r.code = .SUCCESS ∧ r.term = term)
      ∨ (r.code = .EXIT ∧ r.term = { term with icanon := false, echo := false }) := by
  unfold prompt at h
  simp only at h
  split at h
  · simp at h
  · simp only [Option.some.injEq] at h
    rw [← h]
    exact Or.inr ⟨rfl, rfl⟩
  · simp only [Option.some.injEq] at h
    rw [← h]
    exact Or.inl ⟨rfl, rfl⟩
  · simp only [Option.some.injEq] at h
    rw [← h]
    exact Or.inl ⟨rfl, rfl⟩

/-- C7, at the failing input: on the single character Ctrl-D, with the
terminal in canonical mode with echo, `prompt` returns `EXIT` and leaves the
terminal without `ICANON` and `ECHO`, not as it found it. -/
theorem prompt_exit_not_restored (env : env_t) (junk : Nat → command_t) (other : Nat)
    (oldbuf buf0 : List Char) (command : command_t) :
    ∃ r, prompt env junk ⟨true, true, other⟩ oldbuf buf0 command [Char.ofNat 4] = some r
      ∧ r.code = .EXIT ∧ r.term = ⟨false, false, other⟩
      ∧ r.term ≠ ⟨true, true, other⟩ := by
  have hstep : ∀ st : reader_state, st.index = 0 →
      prompt_step env st (Char.ofNat 4)
        = some (.exit { st with buf := poke st.buf st.index (Char.ofNat 4),
                                index := st.index + 1,
                                out := st.out ++ [Char.ofNat 4] }) := by
    intro st hst
    unfold prompt_step
    have h4 : (Char.ofNat 4).toNat = 4 := by decide
    have hn : (Char.ofNat 4) ≠ '\n' := by decide
    simp [h4, hn, hst]
  refine ⟨prompt_result.mk .EXIT ⟨false, false, other⟩ (some command) oldbuf
    (show_prompt env ++ [Char.ofNat 4]), ?_, rfl, rfl, by simp⟩
  have hs := hstep ⟨poke buf0 0 NUL, 0, oldbuf, show_prompt env⟩ rfl
  unfold prompt
  simp only [prompt_loop, hs]

theorem autocomplete_unique_witness :
    env_gitlog.PATH = some "/bin:/usr/bin".toList ∧ '?' ∉ "git".toList
      ∧ (search_entries env_gitlog "/bin:/usr/bin".toList).filter (is_match "git".toList)
          = ["gitlog".toList]
      ∧ ∃ r, autocomplete env_gitlog ("git".toList ++ '?' :: []) ("git".toList.length + 1) = some r
          ∧ cstr r.buf = "gitlog".toList ∧ r.index = "gitlog".toList.length
          ∧ r.out = "gitlog".toList.drop "git".toList.length :=
  ⟨rfl, by decide, by decide,
    autocomplete_unique env_gitlog "/bin:/usr/bin".toList "git".toList "gitlog".toList [] rfl
      (by decide) (by decide)⟩

/-! ## The directory-change built-in -/

/-- Whatever its argument, a `cd` stage from `parse_command` makes
`process_command` call `chdir` on `args[0]`, which is the name `cd`. -/
theorem process_command_cd_args0 (junk : Nat → command_t) (line rest : List Char)
    (command : command_t) (chdir : Option (List Char) → Option (List Char))
    (hl : NUL ∉ line) (hcd : (tokens line).head? = some "cd".toList) :
    ∃ s, parse junk (line ++ NUL :: rest) command = some s
      ∧ (process_command chdir s).1 = some .SUCCESS
      ∧ (process_command chdir s).2.head? = some (.chdir (some "cd".toList)) := by
  obtain ⟨s, hs, hname, -, hargs, -⟩ := parse_total_fields junk line rest command hl
  have hh : (tokens line).headD [] = "cd".toList := by
    cases ht : tokens line with
    | nil => rw [ht] at hcd; simp at hcd
    | cons t ts =>
      rw [ht] at hcd
      simpa using hcd
  rw [hh] at hname hargs
  have hcount : s.arg_count > 0 ∨ s.arg_count = 0 := by omega
  have h0 : s.args.getD 0 none = some "cd".toList := by rw [hargs]; rfl
  have hne : s.name ≠ [] := by rw [hname]; decide
  have hnx : s.name ≠ "exit".toList := by rw [hname]; decide
  refine ⟨s, hs, ?_⟩
  unfold process_command
  rw [if_neg hne, if_neg hnx, h0]
  have hac : s.arg_count > 0 := by
    obtain ⟨r, st', h, -, nx, hr, -⟩ := parse_command_total
      ((line ++ NUL :: rest).length + 2) (line ++ NUL :: rest) command ⟨[], junk⟩ le_rfl
    have : parse junk (line ++ NUL :: rest) command = some r := by unfold parse; rw [h]; rfl
    rw [hs] at this
    obtain rfl : s = r := Option.some.inj this
    rw [hr]
    unfold first_stage reframe
    simp
  rw [if_pos ⟨hname, hac⟩]
  cases chdir (some "cd".toList) <;> exact ⟨rfl, rfl⟩

/-- C10, at the failing input: for the line `cd /tmp`, on a system where
`/tmp` is the only directory, `process_command` asks for a change to the
directory `cd`, not `/tmp`, and the failure message it prints does not name
a path. -/
theorem process_command_cd_tmp :
    (parse (fun _ => command_zero) ("cd /tmp".toList ++ NUL :: []) command_zero).map
        (fun s => (stage_args s, process_command chdir_tmp_only s))
      = some (["/tmp".toList],
          (some .SUCCESS,
            [.chdir (some "cd".toList),
             .print "-dash: cd: No such file or directory\n".toList])) := by
  decide

/-! ## The claims on `parse_command` at concrete lines -/

theorem parse_command_pipe_stage_witness :
    ∃ r a b,
      parse (fun _ => command_zero)
          (("ls -l <in".toList ++ [' '] ++ '|' :: ([' ', '\t'] ++ "wc -l >out".toList)) ++ NUL :: [])
          command_zero = some r
        ∧ parse (fun _ => command_zero) ("ls -l <in".toList ++ NUL :: []) command_zero = some a
        ∧ parse (fun k => (fun _ => command_zero) (k + 1)) ("wc -l >out".toList ++ NUL :: [])
            ((fun _ => command_zero) 0) = some b
        ∧ r.name = a.name ∧ r.args = a.args ∧ r.arg_count = a.arg_count
        ∧ r.redirects = a.redirects ∧ r.next = some b :=
  parse_command_pipe_stage (fun _ => command_zero) "ls -l <in".toList "wc -l >out".toList
    [' '] [' ', '\t'] [] [] command_zero (by decide) (by decide) (by decide)
    (by unfold all_blank; decide) (by decide) (by unfold all_blank; decide) (by decide) (by decide)


theorem sort_redirection_counterexample :
    ¬ ∃ r, parse (fun _ => command_zero) ("sort < in.txt > out.txt".toList ++ NUL :: [])
          command_zero = some r
        ∧ r.name = "sort".toList
        ∧ r.redirects 0 = some "in.txt".toList ∧ r.redirects 1 = some "out.txt".toList
        ∧ r.args = [some "sort".toList, none] := by
  rintro ⟨r, hr, -, h0, -⟩
  have h : (parse (fun _ => command_zero) ("sort < in.txt > out.txt".toList ++ NUL :: [])
      command_zero).map (fun r => r.redirects 0) = some (some []) := by decide
  rw [hr] at h
  simp only [Option.map_some', Option.some.injEq] at h
  rw [h0] at h
  exact absurd h (by decide)

theorem parse_sort_redirection_witness :
    clean_name "in.txt".toList ∧ clean_name "out.txt".toList
      ∧ (∃ r, parse (fun _ => command_zero)
            ("sort < ".toList ++ "in.txt".toList ++ " > ".toList ++ "out.txt".toList ++ NUL :: [])
            command_zero = some r
          ∧ r.name = "sort".toList
          ∧ r.redirects 0 = some [] ∧ r.redirects 1 = some [] ∧ r.redirects 2 = none
          ∧ r.args = [some "sort".toList, some "in.txt".toList, some "out.txt".toList, none])
      ∧ (∃ r, parse (fun _ => command_zero)
            ("sort <".toList ++ "in.txt".toList ++ " >".toList ++ "out.txt".toList ++ NUL :: [])
            command_zero = some r
          ∧ r.name = "sort".toList
          ∧ r.redirects 0 = some "in.txt".toList ∧ r.redirects 1 = some "out.txt".toList
          ∧ r.redirects 2 = none
          ∧ r.args = [some "sort".toList, none]) :=
  ⟨by unfold clean_name; decide, by unfold clean_name; decide,
    parse_sort_redirection (fun _ => command_zero) "in.txt".toList "out.txt".toList []
      (by unfold clean_name; decide) (by unfold clean_name; decide)⟩

theorem reparse_counterexample :
    ∃ s s', parse (fun _ => command_zero) ("echo \"&\"".toList ++ NUL :: []) command_zero = some s
      ∧ s.next = none ∧ (∀ i, s.redirects i = none)
      ∧ parse (fun _ => command_zero) (rejoin s ++ NUL :: []) command_zero = some s'
      ∧ stage_args s = [['&']] ∧ stage_args s' = [] := by
  refine ⟨single_stage command_zero "echo \"&\"".toList,
    single_stage command_zero "echo &".toList,
    parse_no_pipe _ _ _ _ (by decide) (by decide), rfl, fun i => by fin_cases i <;> rfl,
    parse_no_pipe _ "echo &".toList _ _ (by decide) (by decide), by decide, by decide⟩

theorem reparse_clean_witness :
    ∃ s', parse (fun _ => command_zero)
          (rejoin (single_stage command_zero "  ls  -l 'a' &".toList) ++ NUL :: [])
          command_zero = some s'
      ∧ s'.name = (single_stage command_zero "  ls  -l 'a' &".toList).name
      ∧ stage_args s' = stage_args (single_stage command_zero "  ls  -l 'a' &".toList)
      ∧ (∀ i, s'.redirects i = (single_stage command_zero "  ls  -l 'a' &".toList).redirects i)
      ∧ s'.next = none :=
  reparse_clean (fun _ => command_zero) "  ls  -l 'a' &".toList [] []
    (single_stage command_zero "  ls  -l 'a' &".toList) (by decide)
    (parse_no_pipe _ _ _ _ (by decide) (by decide)) rfl (fun i => by fin_cases i <;> rfl)
    (by decide)

/-- C1, at the failing input: on the line `ls | wc`, with `malloc` handing
back a block that an earlier command left dirty, the stage after the pipe has
the name and the argument array of `parse_command` applied to `wc`, but its
three redirect slots and its `next` field hold the old contents of the block,
where `parse_command` applied to `wc` from a cleared struct leaves them unset:
the struct allocated at line 178 is not cleared as `main` clears its own. -/
theorem parse_command_pipe_uninitialised :
    (parse junk_dirty ("ls | wc".toList ++ NUL :: []) command_zero).map
        (fun r => r.next.map (fun n =>
          (n.name, n.args, n.redirects 0, n.redirects 1, n.redirects 2, n.next.isSome)))
      = some (some ("wc".toList, [some "wc".toList, none],
          some ['x'], some ['x'], some ['x'], true))
    ∧ (parse junk_dirty ("wc".toList ++ NUL :: []) command_zero).map
        (fun b => (b.name, b.args, b.redirects 0, b.redirects 1, b.redirects 2, b.next.isSome))
      = some ("wc".toList, [some "wc".toList, none], none, none, none, false) := by
  constructor <;> rfl

end Shell
